import Mathlib

/-!
# Verification of the heuristic alignment engine (wii-code-tools)

Shallow embedding of `src/auto_align_by_data.py` and
`src/auto_align_by_xrefs.py`: byte buffers are `List Nat`, Python ints are
`Int`, fallible operations return `Except String` or `Option`.  The Python
sequence primitives (slicing with negative indices, `bytes.count`,
`bytes.find`, `list.insert`, indexing with wraparound) are modelled first,
then the two aligners, then the theorems about the frozen claims.
-/

/-- Python slice index normalization for a sequence of length `len`:
a negative index counts from the end, and the result is clamped to
`[0, len]`. -/
def pySliceIdx (len : Nat) (i : Int) : Nat :=
  (if i < 0 then i + len else i).toNat.min len

/-- Python slice `l[start:stop]` (step 1). -/
def pySlice (l : List Nat) (start stop : Int) : List Nat :=
  (l.take (pySliceIdx l.length stop)).drop (pySliceIdx l.length start)

/-- Python indexing `l[i]`: negative indices wrap once from the end;
`none` models an `IndexError`. -/
def pyIndex (l : List Nat) (i : Int) : Option Nat :=
  let j := if i < 0 then i + l.length else i
  if j < 0 then none else l.get? j.toNat

/-- Whether `sub` occurs at the very start of `b`
(`b[0 : len(sub)] == sub`). -/
def matchesHere (b sub : List Nat) : Bool :=
  b.take sub.length == sub

/-- Index of the first occurrence of `sub` in `b`, scanning left to right
(`bytes.find` but `Option`-valued). -/
def pyFindIdx : List Nat → List Nat → Option Nat
  | b, sub =>
    if matchesHere b sub then some 0
    else
      match b with
      | [] => none
      | _ :: t => (pyFindIdx t sub).map (· + 1)

/-- Python `bytes.find`: first occurrence of `sub` in `b`, `-1` if absent. -/
def pyFind (b sub : List Nat) : Int :=
  match pyFindIdx b sub with
  | some i => (i : Int)
  | none => -1

/-- Python `bytes.count(sub)`: the number of NON-OVERLAPPING occurrences of
`sub` in `b`, scanning left to right and skipping `len(sub)` positions after
each match; an empty `sub` counts `len(b) + 1` times. -/
def pyCount : List Nat → List Nat → Nat
  | b, sub =>
    if h : sub.length = 0 then b.length + 1
    else if h2 : matchesHere b sub then
      1 + pyCount (b.drop sub.length) sub
    else
      match b with
      | [] => 0
      | _ :: t => pyCount t sub
termination_by b _ => b.length
decreasing_by
  · simp only [matchesHere, beq_iff_eq] at h2
    have hlen : (b.take sub.length).length = sub.length := by rw [h2]
    rw [List.length_take] at hlen
    simp only [List.length_drop]
    omega
  · simp

/-- The number of positions at which `sub` occurs in `b`, occurrences
counted with overlap: the mathematical reading of "occurs in `b`
exactly once". -/
def occCount (b sub : List Nat) : Nat :=
  ((List.range (b.length + 1)).filter (fun i => matchesHere (b.drop i) sub)).length

/-- `check_match_at` from `src/auto_align_by_data.py` (lines 19-30):
extract `data_a[offset : offset + size]`; return `None` if the snippet is
all null bytes or does not have exactly one `bytes.count` occurrence in
`data_b`; otherwise return `data_b.find(snippet)`. -/
def check_match_at (data_a data_b : List Nat) (offset size : Int) : Option Int :=
  let snippet := pySlice data_a offset (offset + size)
  if snippet.any (fun x => x != 0) = false then none
  else if pyCount data_b snippet ≠ 1 then none
  else some (pyFind data_b snippet)

/-! ## Basic facts about the byte-string primitives -/

theorem pyFindIdx_matches {b sub : List Nat} {i : Nat}
    (h : pyFindIdx b sub = some i) :
    matchesHere (b.drop i) sub = true ∧ ∀ j < i, matchesHere (b.drop j) sub = false := by
  induction b generalizing i with
  | nil =>
    rw [pyFindIdx] at h
    by_cases hm : matchesHere [] sub
    · simp [hm] at h
      subst h
      exact ⟨hm, by omega⟩
    · simp [hm] at h
  | cons x t ih =>
    rw [pyFindIdx] at h
    by_cases hm : matchesHere (x :: t) sub
    · simp [hm] at h
      subst h
      exact ⟨hm, by omega⟩
    · simp only [hm, if_neg, Bool.false_eq_true, if_false] at h
      match hrec : pyFindIdx t sub with
      | none => rw [hrec] at h; simp at h
      | some i' =>
        rw [hrec] at h
        simp only [Option.map_some'] at h
        obtain rfl : i' + 1 = i := Option.some.inj h
        obtain ⟨h1, h2⟩ := ih hrec
        constructor
        · simpa [List.drop_succ_cons] using h1
        · intro j hj
          match j with
          | 0 => simpa using eq_false_of_ne_true hm
          | j' + 1 =>
            have := h2 j' (by omega)
            simpa [List.drop_succ_cons] using this

theorem pyCount_pos_findIdx {b sub : List Nat}
    (h : pyCount b sub ≠ 0) : ∃ i, pyFindIdx b sub = some i := by
  induction b, sub using pyCount.induct with
  | case1 b sub hsub =>
    have : sub = [] := List.length_eq_zero.mp hsub
    subst this
    exact ⟨0, by rw [pyFindIdx.eq_def]; simp [matchesHere]⟩
  | case2 b sub hsub hm ih =>
    exact ⟨0, by rw [pyFindIdx.eq_def]; simp [hm]⟩
  | case3 sub hsub hm _ =>
    rw [pyCount] at h
    simp [hsub, hm] at h
  | case4 sub hsub x t hm _ ih =>
    rw [pyCount] at h
    simp only [hsub, dite_false, hm] at h
    obtain ⟨i, hi⟩ := ih h
    exact ⟨i + 1, by rw [pyFindIdx.eq_def]; simp [hm, hi]⟩

/-! ## Claims C3 and C4: the unique-substring matcher -/

/-- C3 (amended): `check_match_at` returns no match exactly when the
extracted snippet is all-zero bytes or its number of non-overlapping
occurrences in `data_b` (Python's `bytes.count`, scanning left to right) is
not 1; otherwise it returns the index of the leftmost occurrence of the
snippet in `data_b`. -/
theorem check_match_at_characterization (data_a data_b : List Nat) (offset size : Int) :
    (check_match_at data_a data_b offset size = none ↔
      ((∀ x ∈ pySlice data_a offset (offset + size), x = 0) ∨
        pyCount data_b (pySlice data_a offset (offset + size)) ≠ 1)) ∧
    (∀ i : Int, check_match_at data_a data_b offset size = some i →
      ∃ k : Nat, i = (k : Int) ∧
        matchesHere (data_b.drop k) (pySlice data_a offset (offset + size)) = true ∧
        ∀ j < k, matchesHere (data_b.drop j) (pySlice data_a offset (offset + size)) = false) := by
  have hall : (pySlice data_a offset (offset + size)).any (fun x => x != 0) = false ↔
      (∀ x ∈ pySlice data_a offset (offset + size), x = 0) := by
    simp [List.any_eq_false]
  by_cases h1 : (pySlice data_a offset (offset + size)).any (fun x => x != 0) = false
  · have hc : check_match_at data_a data_b offset size = none := by
      unfold check_match_at
      simp only [h1, if_pos]
    refine ⟨⟨fun _ => Or.inl (hall.mp h1), fun _ => hc⟩, fun i hi => ?_⟩
    rw [hc] at hi
    exact absurd hi (by simp)
  · by_cases h2 : pyCount data_b (pySlice data_a offset (offset + size)) = 1
    · have hc : check_match_at data_a data_b offset size =
          some (pyFind data_b (pySlice data_a offset (offset + size))) := by
        unfold check_match_at
        simp only [h1, if_neg, h2, ne_eq, not_true_eq_false, if_false, not_false_eq_true]
        simp
      refine ⟨⟨fun hn => ?_, fun hor => ?_⟩, fun i hi => ?_⟩
      · rw [hc] at hn
        exact absurd hn (by simp)
      · rcases hor with hz | hcnt
        · exact absurd (hall.mpr hz) h1
        · exact absurd h2 hcnt
      · rw [hc] at hi
        obtain ⟨k, hk⟩ := @pyCount_pos_findIdx data_b
          (pySlice data_a offset (offset + size)) (by omega)
        obtain ⟨hm, hleast⟩ := pyFindIdx_matches hk
        refine ⟨k, ?_, hm, hleast⟩
        have : pyFind data_b (pySlice data_a offset (offset + size)) = (k : Int) := by
          unfold pyFind
          rw [hk]
        rw [this] at hi
        exact (Option.some.inj hi).symm
    · have hc : check_match_at data_a data_b offset size = none := by
        unfold check_match_at
        simp only [h1, if_neg, h2, ne_eq, not_false_eq_true, if_true, if_pos]
        simp
      refine ⟨⟨fun _ => Or.inr h2, fun _ => hc⟩, fun i hi => ?_⟩
      rw [hc] at hi
      exact absurd hi (by simp)

/-- C3, counterexample to the claim as stated: with `A = [1,1]`,
`B = [1,1,1]`, the snippet `[1,1]` occurs TWICE in `B` (at indices 0 and 1,
occurrences counted with overlap as "occurs exactly once" reads
mathematically), yet `check_match_at` returns a match, because Python's
`bytes.count` counts non-overlapping occurrences only. -/
theorem check_match_at_overlap_counterexample :
    ¬ (check_match_at [1, 1] [1, 1, 1] 0 2 = none ↔
        ((∀ x ∈ pySlice [1, 1] 0 (0 + 2), x = 0) ∨
          occCount [1, 1, 1] (pySlice [1, 1] 0 (0 + 2)) ≠ 1)) := by
  have h1 : check_match_at [1, 1] [1, 1, 1] 0 2 = some 0 := by
    simp [check_match_at, pySlice, pySliceIdx, pyCount, matchesHere, pyFind, pyFindIdx]
  intro h
  have h2 := h.mpr (Or.inr (by decide))
  rw [h1] at h2
  exact Option.noConfusion h2

/-- C4 (amended): `check_match_at` returns a (non-`None`) result if and only
if the snippet is NOT all-zero and occurs in the target buffer exactly once
as counted by Python's non-overlapping `bytes.count`. -/
theorem check_match_at_isSome_iff (data_a data_b : List Nat) (offset size : Int) :
    ((check_match_at data_a data_b offset size).isSome = true ↔
      (¬ (∀ x ∈ pySlice data_a offset (offset + size), x = 0) ∧
        pyCount data_b (pySlice data_a offset (offset + size)) = 1)) := by
  obtain ⟨hiff, _⟩ := check_match_at_characterization data_a data_b offset size
  constructor
  · intro hsome
    have hne : ¬ check_match_at data_a data_b offset size = none := by
      intro hn; rw [hn] at hsome; exact absurd hsome (by simp)
    have := (not_iff_not.mpr hiff).mp hne
    push_neg at this
    refine ⟨fun hz => ?_, this.2⟩
    obtain ⟨x, hx, hxne⟩ := this.1
    exact hxne (hz x hx)
  · intro ⟨hz, hcnt⟩
    have hne : ¬ check_match_at data_a data_b offset size = none := by
      intro hn
      rcases hiff.mp hn with h | h
      · exact hz h
      · exact h hcnt
    cases hm : check_match_at data_a data_b offset size with
    | none => exact absurd hm hne
    | some v => simp

/-- C4, counterexample to the claim as stated ("returns a result iff the
snippet occurs in the target buffer exactly once"), in both directions: an
all-zero snippet `[0]` occurs exactly once in `[0]` yet yields no result,
and the snippet `[1,1]` occurs twice in `[1,1,1]` (with overlap) yet yields
a result. -/
theorem check_match_at_once_counterexample :
    (¬ ((check_match_at [0] [0] 0 1).isSome = true ↔
        occCount [0] (pySlice [0] 0 (0 + 1)) = 1)) ∧
    (¬ ((check_match_at [1, 1] [1, 1, 1] 0 2).isSome = true ↔
        occCount [1, 1, 1] (pySlice [1, 1] 0 (0 + 2)) = 1)) := by
  constructor
  · have h1 : check_match_at [0] [0] 0 1 = none := by
      simp [check_match_at, pySlice, pySliceIdx]
    intro h
    have h2 := h.mpr (by decide)
    rw [h1] at h2
    exact absurd h2 (by simp)
  · have h1 : check_match_at [1, 1] [1, 1, 1] 0 2 = some 0 := by
      simp [check_match_at, pySlice, pySliceIdx, pyCount, matchesHere, pyFind, pyFindIdx]
    intro h
    have h2 := h.mp (by rw [h1]; rfl)
    exact absurd h2 (by decide)

/-! ## The breakpoint tracker (`DifferencesTracker`, lines 52-127) -/

/-- Python `l[i]` on a list of `(address, offset)` pairs, with Python's
single negative-index wraparound; the default `(0, 0)` stands in for an
`IndexError` (unreachable at the call sites below). -/
def pyGetPair (l : List (Int × Int)) (i : Int) : Int × Int :=
  let j := if i < 0 then i + l.length else i
  if j < 0 then (0, 0) else l.getD j.toNat (0, 0)

/-- Python `l[i] = v` (the call sites below only use in-range indices;
out-of-range would be an `IndexError`, modelled as no change). -/
def pySetPair (l : List (Int × Int)) (i : Int) (v : Int × Int) : List (Int × Int) :=
  let j := if i < 0 then i + l.length else i
  if j < 0 then l else l.set j.toNat v

def listInsertAt : Nat → (Int × Int) → List (Int × Int) → List (Int × Int)
  | 0, v, l => v :: l
  | _ + 1, v, [] => [v]
  | n + 1, v, x :: xs => x :: listInsertAt n v xs

/-- Python `list.insert(i, v)`: the index is clamped to either end. -/
def pyInsertPair (l : List (Int × Int)) (i : Int) (v : Int × Int) : List (Int × Int) :=
  listInsertAt ((if i < 0 then i + l.length else i).toNat.min l.length) v l

/-- The tracker's state: the ordered `(address, offset_delta)` pairs plus
the `last_address`/`last_offset` fields stored by `__init__`. -/
structure DifferencesTracker where
  known_address_offsets : List (Int × Int)
  last_address : Int
  last_offset : Int
deriving DecidableEq

/-- `DifferencesTracker.__init__` (lines 56-60). -/
def DifferencesTracker.init (first_address first_offset last_address last_offset : Int) :
    DifferencesTracker :=
  ⟨[(first_address, first_offset), (last_address, last_offset)], last_address, last_offset⟩

/-- The `first_address` property: `known_address_offsets[0][0]`. -/
def DifferencesTracker.first_address (t : DifferencesTracker) : Int :=
  (t.known_address_offsets.headD (0, 0)).1

/-- The `first_offset` property: `known_address_offsets[0][1]`. -/
def DifferencesTracker.first_offset (t : DifferencesTracker) : Int :=
  (t.known_address_offsets.headD (0, 0)).2

/-- The loop of `expected_offset_at`: walk the entries in order carrying the
previous entry's offset; at the first entry whose address exceeds the query,
return the carried offset (`known_address_offsets[i - 1][1]`); fall off the
end with `None`. -/
def expectedAux (address : Int) : Option Int → List (Int × Int) → Option Int
  | _, [] => none
  | prev, (addr, offs) :: rest =>
      if address < addr then prev else expectedAux address (some offs) rest

/-- `expected_offset_at` (lines 70-79).  The carried offset starts as the
LAST entry's offset because Python's `known_address_offsets[i - 1]` with
`i = 0` wraps to `known_address_offsets[-1]`. -/
def expected_offset_at (l : List (Int × Int)) (address : Int) : Option Int :=
  expectedAux address ((l.getLast?).map Prod.snd) l

/-- The scan of `report_offset_at_address` (lines 98-103): walk the entries
in reverse, recording the index (from the end) of each entry whose address
exceeds the reported one, and stop at the first that does not. -/
def eifeAux (address : Int) : List (Int × Int) → Option Nat → Nat → Option Nat
  | [], acc, _ => acc
  | (addr, _) :: rest, acc, i =>
      if address < addr then eifeAux address rest (some i) (i + 1) else acc

/-- `entry_index_from_end` as computed by lines 98-103. -/
def entry_index_from_end (l : List (Int × Int)) (address : Int) : Option Nat :=
  eifeAux address l.reverse none 0

/-- Lines 97-127 of `report_offset_at_address`: the scan for the entry
just after the reported address, and the push-forward / ignore / insert
decision.  `l` is `self.known_address_offsets`. -/
def reportCore (l : List (Int × Int)) (t : DifferencesTracker) (address offset : Int) :
    Except String (DifferencesTracker × Bool) :=
  match entry_index_from_end l address with
  | none =>
    -- next entry would be at the end of the list
    let prev_offset := (pyGetPair l (-1)).2
    let next_entry_id : Int := l.length
    if offset = prev_offset then .ok (t, false)
    else .ok ({ t with known_address_offsets := pyInsertPair l next_entry_id (address, offset) },
      true)
  | some k =>
    let next_entry_id : Int := (l.length : Int) - (k : Int) - 1
    let next_offset := (pyGetPair l next_entry_id).2
    let prev_offset := (pyGetPair l (next_entry_id - 1)).2
    if offset = next_offset then
      -- push it forward
      .ok ({ t with known_address_offsets := pySetPair l next_entry_id (address, offset) },
        false)
    else if offset = prev_offset then .ok (t, false)
    else .ok ({ t with known_address_offsets := pyInsertPair l next_entry_id (address, offset) },
      true)

/-- `report_offset_at_address` (lines 81-127).  `Except.error` models the
raised exception (`ValueError` for the bounds check; `IndexError` for the
`known_address_offsets[0]` access of the `first_address` property on an
empty sequence, which Python would hit first). -/
def report_offset_at_address (t : DifferencesTracker) (address offset : Int) :
    Except String (DifferencesTracker × Bool) :=
  match t.known_address_offsets with
  | [] => .error "IndexError"
  | _ :: _ =>
    if ¬ (t.first_address ≤ address ∧ address < t.last_address) then
      .error "ValueError: address out of bounds"
    else reportCore t.known_address_offsets t address offset

theorem reportCore_ne_error (l : List (Int × Int)) (t : DifferencesTracker)
    (address offset : Int) (e : String) : reportCore l t address offset ≠ .error e := by
  unfold reportCore
  cases hk : entry_index_from_end l address <;> dsimp only <;> split_ifs <;> simp

/-! ## Claim C6: the bounds check of `report_offset_at_address` -/

/-- C6: on a tracker with a nonempty breakpoint sequence,
`report_offset_at_address` raises exactly when the reported address violates
`first_address ≤ address < last_address`.  The embedding is pure, so an
error carries no new tracker state: the breakpoint sequence is untouched on
the error path (the check precedes every mutation in the source). -/
theorem report_range_error_iff (t : DifferencesTracker) (address offset : Int)
    (h : t.known_address_offsets ≠ []) :
    (∃ e, report_offset_at_address t address offset = .error e) ↔
      ¬ (t.first_address ≤ address ∧ address < t.last_address) := by
  unfold report_offset_at_address
  match hl : t.known_address_offsets with
  | [] => exact absurd hl h
  | p :: rest =>
    by_cases hb : t.first_address ≤ address ∧ address < t.last_address
    · rw [if_neg (not_not_intro hb)]
      apply iff_of_false _ (not_not_intro hb)
      rintro ⟨e, he⟩
      exact reportCore_ne_error _ _ _ _ _ he
    · rw [if_pos hb]
      exact iff_of_true ⟨_, rfl⟩ hb

/-- C6, witness: a report at address 20 on the tracker over `[0, 10)` is
out of range, so it errors. -/
theorem report_range_error_iff_witness :
    ∃ e, report_offset_at_address (DifferencesTracker.init 0 0 10 0) 20 0 = .error e :=
  (report_range_error_iff (DifferencesTracker.init 0 0 10 0) 20 0 (by decide)).mpr (by decide)

/-! ## Splitting a sorted breakpoint sequence at a query address -/

/-- The pairwise strict order on breakpoint addresses: the tracker's
"addresses strictly increasing" representation. -/
def AddrSorted (l : List (Int × Int)) : Prop :=
  List.Pairwise (fun p q : Int × Int => p.1 < q.1) l

instance (l : List (Int × Int)) : Decidable (AddrSorted l) := by
  unfold AddrSorted; infer_instance

theorem mem_takeWhile_le (address : Int) (l : List (Int × Int)) :
    ∀ p ∈ l.takeWhile (fun q => decide (q.1 ≤ address)), p.1 ≤ address := by
  induction l with
  | nil => intro p hp; cases hp
  | cons x xs ih =>
    intro p hp
    by_cases hx : x.1 ≤ address
    · rw [List.takeWhile_cons, if_pos (by simpa using hx)] at hp
      rcases List.mem_cons.mp hp with rfl | hp'
      · exact hx
      · exact ih p hp'
    · rw [List.takeWhile_cons, if_neg (by simpa using hx)] at hp
      cases hp

theorem mem_dropWhile_gt (address : Int) (l : List (Int × Int)) (hs : AddrSorted l) :
    ∀ p ∈ l.dropWhile (fun q => decide (q.1 ≤ address)), address < p.1 := by
  induction l with
  | nil => intro p hp; cases hp
  | cons x xs ih =>
    intro p hp
    by_cases hx : x.1 ≤ address
    · rw [List.dropWhile_cons, if_pos (by simpa using hx)] at hp
      exact ih hs.tail p hp
    · rw [List.dropWhile_cons, if_neg (by simpa using hx)] at hp
      rcases List.mem_cons.mp hp with rfl | hp'
      · omega
      · have := (List.pairwise_cons.mp hs).1 p hp'
        omega

theorem getLastD_indep {l : List (Int × Int)} (h : l ≠ []) (a b : Int × Int) :
    l.getLastD a = l.getLastD b := by
  rw [List.getLastD_eq_getLast?, List.getLastD_eq_getLast?]
  obtain ⟨x, hx⟩ := List.getLast?_isSome.mpr h |> Option.isSome_iff_exists.mp
  rw [hx]
  rfl

theorem getLastD_mem {l : List (Int × Int)} (h : l ≠ []) (d : Int × Int) :
    l.getLastD d ∈ l := by
  rw [List.getLastD_eq_getLast?]
  obtain ⟨x, hx⟩ := List.getLast?_isSome.mpr h |> Option.isSome_iff_exists.mp
  rw [hx]
  exact List.mem_of_mem_getLast? hx

theorem mem_le_getLastD {l : List (Int × Int)} (hs : AddrSorted l) {q : Int × Int}
    (hq : q ∈ l) : q.1 ≤ (l.getLastD (0, 0)).1 := by
  induction l with
  | nil => cases hq
  | cons x xs ih =>
    rw [List.getLastD_cons]
    rcases List.mem_cons.mp hq with rfl | hq'
    · match hxs : xs with
      | [] => simp
      | y :: ys =>
        have hmem : xs.getLastD q ∈ xs := by rw [hxs]; exact getLastD_mem (by simp) q
        rw [hxs] at hmem
        have := (List.pairwise_cons.mp hs).1 _ hmem
        rw [← hxs, getLastD_indep (by rw [hxs]; simp) q (0, 0)] at this ⊢
        omega
    · have hne : xs ≠ [] := by rintro rfl; cases hq'
      rw [getLastD_indep hne x (0, 0)]
      exact ih hs.tail hq'

theorem eifeAux_spec (address : Int) (xs : List (Int × Int)) :
    ∀ (ys : List (Int × Int)) (acc : Option Nat) (i : Nat),
      (∀ p ∈ xs, address < p.1) →
      (ys = [] ∨ ∃ q qs, ys = q :: qs ∧ ¬ address < q.1) →
      eifeAux address (xs ++ ys) acc i =
        if xs.isEmpty then acc else some (i + xs.length - 1) := by
  induction xs with
  | nil =>
    intro ys acc i _ hys
    rcases hys with rfl | ⟨q, qs, rfl, hq⟩
    · simp [eifeAux]
    · simp only [List.nil_append, List.isEmpty_nil, if_true]
      rw [eifeAux]
      exact if_neg hq
  | cons x xs' ih =>
    intro ys acc i hxs hys
    have hx : address < x.1 := hxs x (List.mem_cons_self x xs')
    rw [List.cons_append, eifeAux, if_pos hx,
      ih ys (some i) (i + 1) (fun p hp => hxs p (List.mem_cons_of_mem x hp)) hys]
    by_cases he : xs' = []
    · subst he; simp
    · rw [if_neg (by simpa using he), if_neg (by simp)]
      have : xs'.length ≠ 0 := by simpa using he
      congr 1
      simp only [List.length_cons]
      omega

theorem eife_split (address : Int) (l1 l2 : List (Int × Int))
    (h1 : ∀ p ∈ l1, p.1 ≤ address) (h2 : ∀ p ∈ l2, address < p.1) :
    entry_index_from_end (l1 ++ l2) address =
      if l2.isEmpty then none else some (l2.length - 1) := by
  unfold entry_index_from_end
  rw [List.reverse_append]
  have hys : l1.reverse = [] ∨ ∃ q qs, l1.reverse = q :: qs ∧ ¬ address < q.1 := by
    match hrev : l1.reverse with
    | [] => exact Or.inl rfl
    | q :: qs =>
      refine Or.inr ⟨q, qs, rfl, ?_⟩
      have : q ∈ l1 := List.mem_reverse.mp (by rw [hrev]; exact List.mem_cons_self q qs)
      have := h1 q this
      omega
  rw [eifeAux_spec address l2.reverse l1.reverse none 0
    (fun p hp => h2 p (List.mem_reverse.mp hp)) hys]
  simp [List.isEmpty_iff, List.length_reverse]

theorem expectedAux_split (address : Int) (l1 : List (Int × Int)) :
    ∀ (l2 : List (Int × Int)) (prev : Option Int),
      (∀ p ∈ l1, p.1 ≤ address) →
      (∀ p ∈ l2, address < p.1) →
      expectedAux address prev (l1 ++ l2) =
        if l2.isEmpty then none
        else if l1.isEmpty then prev else some (l1.getLastD (0, 0)).2 := by
  induction l1 with
  | nil =>
    intro l2 prev _ h2
    match hl2 : l2 with
    | [] => simp [expectedAux]
    | q :: qs =>
      simp only [List.nil_append, List.isEmpty_cons, List.isEmpty_nil, if_true, Bool.false_eq_true,
        if_false]
      rw [expectedAux]
      exact if_pos (h2 q (List.mem_cons_self q qs))
  | cons x xs ih =>
    intro l2 prev h1 h2
    have hx : x.1 ≤ address := h1 x (List.mem_cons_self x xs)
    rw [List.cons_append, expectedAux]
    have : ¬ address < x.1 := by omega
    rw [if_neg this, ih l2 (some x.2) (fun p hp => h1 p (List.mem_cons_of_mem x hp)) h2]
    by_cases hl2 : l2 = []
    · subst hl2; simp
    · by_cases hxs : xs = []
      · subst hxs
        simp [List.isEmpty_iff, hl2]
      · rw [List.getLastD_cons, getLastD_indep hxs x (0, 0)]
        simp [List.isEmpty_iff, hl2, hxs]

/-! ## Claim C5: `expected_offset_at` returns the delta of the greatest entry ≤ query -/

/-- C5 (amended): on a breakpoint sequence with strictly increasing
addresses, for a query at or above the first tracked address and strictly
below at least one tracked address, `expected_offset_at` returns the offset
of the entry with the greatest address less than or equal to the query. -/
theorem expected_offset_at_greatest (l : List (Int × Int)) (address : Int)
    (hs : AddrSorted l) (hne : l ≠ []) (hfa : (l.headD (0, 0)).1 ≤ address)
    (hlt : ∃ p ∈ l, address < p.1) :
    ∃ p ∈ l, p.1 ≤ address ∧ (∀ q ∈ l, q.1 ≤ address → q.1 ≤ p.1) ∧
      expected_offset_at l address = some p.2 := by
  obtain ⟨x, xs, rfl⟩ : ∃ x xs, l = x :: xs := by
    match l, hne with
    | x :: xs, _ => exact ⟨x, xs, rfl⟩
  have hx : x.1 ≤ address := by simpa using hfa
  have hsplit := List.takeWhile_append_dropWhile (fun q : Int × Int => decide (q.1 ≤ address))
    (x :: xs)
  have h1 := mem_takeWhile_le address (x :: xs)
  have h2 := mem_dropWhile_gt address (x :: xs) hs
  have hl1ne : (x :: xs).takeWhile (fun q : Int × Int => decide (q.1 ≤ address)) ≠ [] := by
    rw [List.takeWhile_cons, if_pos (by simpa using hx)]
    simp
  have hl2ne : (x :: xs).dropWhile (fun q : Int × Int => decide (q.1 ≤ address)) ≠ [] := by
    obtain ⟨p0, hp0l, hp0⟩ := hlt
    intro hemp
    rw [← hsplit, hemp, List.append_nil] at hp0l
    have := h1 p0 hp0l
    omega
  refine ⟨((x :: xs).takeWhile (fun q : Int × Int => decide (q.1 ≤ address))).getLastD (0, 0),
    ?_, ?_, ?_, ?_⟩
  · exact (List.takeWhile_sublist _).subset (getLastD_mem hl1ne (0, 0))
  · exact h1 _ (getLastD_mem hl1ne (0, 0))
  · intro q hq hqle
    rw [← hsplit] at hq
    rcases List.mem_append.mp hq with hq1 | hq2
    · exact mem_le_getLastD (List.Pairwise.sublist (List.takeWhile_sublist _) hs) hq1
    · exact absurd hqle (by have := h2 q hq2; omega)
  · unfold expected_offset_at
    conv_lhs => rw [← hsplit]
    rw [expectedAux_split address _ _ _ h1 h2]
    rw [if_neg (by simpa using hl2ne), if_neg (by simpa using hl1ne)]

/-- C5, counterexample to the claim as stated, for the tracker
`[(0, 5), (10, 7)]`: at the query 10 the entry with the greatest address
≤ 10 is `(10, 7)`, yet the scan falls off the end and returns nothing; and
at the query `-1` no entry has address ≤ the query, yet the function
returns the LAST entry's offset (Python's `[i - 1]` with `i = 0` wraps to
`[-1]`). -/
theorem expected_offset_at_counterexample :
    (expected_offset_at [((0 : Int), (5 : Int)), (10, 7)] 10 = none ∧
      ((10 : Int), (7 : Int)) ∈ [((0 : Int), (5 : Int)), (10, 7)] ∧ (10 : Int) ≤ 10) ∧
    (expected_offset_at [((0 : Int), (5 : Int)), (10, 7)] (-1) = some 7 ∧
      ∀ p ∈ [((0 : Int), (5 : Int)), (10, 7)], ¬ p.1 ≤ (-1 : Int)) := by
  decide

/-- C5, witness for the amended claim at the sorted sequence
`[(0, 1), (5, 2), (10, 3)]` and query 7. -/
theorem expected_offset_at_greatest_witness :
    ∃ p ∈ [((0 : Int), (1 : Int)), (5, 2), (10, 3)], p.1 ≤ 7 ∧
      (∀ q ∈ [((0 : Int), (1 : Int)), (5, 2), (10, 3)], q.1 ≤ 7 → q.1 ≤ p.1) ∧
      expected_offset_at [((0 : Int), (1 : Int)), (5, 2), (10, 3)] 7 = some p.2 :=
  expected_offset_at_greatest [((0 : Int), (1 : Int)), (5, 2), (10, 3)] 7 (by decide) (by decide)
    (by decide) (by decide)

/-! ## Evaluating `reportCore` on a sequence split at the reported address -/

theorem listInsertAt_append (l1 l2 : List (Int × Int)) (v : Int × Int) :
    listInsertAt l1.length v (l1 ++ l2) = l1 ++ v :: l2 := by
  induction l1 with
  | nil => rfl
  | cons x xs ih => simp [listInsertAt, ih]

theorem pyInsertPair_at_append (l1 l2 : List (Int × Int)) (v : Int × Int) :
    pyInsertPair (l1 ++ l2) (l1.length : Int) v = l1 ++ v :: l2 := by
  unfold pyInsertPair
  rw [if_neg (by omega)]
  have h1 : ((l1.length : Int)).toNat = l1.length := by omega
  rw [h1]
  have h2 : l1.length.min (l1 ++ l2).length = l1.length := by
    simp [List.length_append]
  rw [h2, listInsertAt_append]

theorem set_append_length (l1 : List (Int × Int)) (q : Int × Int) (qs : List (Int × Int))
    (v : Int × Int) : (l1 ++ q :: qs).set l1.length v = l1 ++ v :: qs := by
  induction l1 with
  | nil => rfl
  | cons x xs ih => simp [List.set, ih]

theorem pySetPair_at_append (l1 : List (Int × Int)) (q : Int × Int) (qs : List (Int × Int))
    (v : Int × Int) : pySetPair (l1 ++ q :: qs) (l1.length : Int) v = l1 ++ v :: qs := by
  unfold pySetPair
  rw [if_neg (by omega)]
  rw [if_neg (show ¬ ((l1.length : Int) < 0) by omega)]
  have h1 : ((l1.length : Int)).toNat = l1.length := by omega
  rw [h1, set_append_length]

theorem pyGetPair_at_append (l1 : List (Int × Int)) (q : Int × Int) (qs : List (Int × Int)) :
    pyGetPair (l1 ++ q :: qs) (l1.length : Int) = q := by
  unfold pyGetPair
  rw [if_neg (by omega)]
  rw [if_neg (show ¬ ((l1.length : Int) < 0) by omega)]
  have h1 : ((l1.length : Int)).toNat = l1.length := by omega
  rw [h1, List.getD_eq_getElem?_getD, List.getElem?_append_right (le_refl l1.length)]
  simp

theorem getD_length_sub_one_eq_getLastD (l : List (Int × Int)) (_h : l ≠ []) :
    l.getD (l.length - 1) (0, 0) = l.getLastD (0, 0) := by
  rw [List.getD_eq_getElem?_getD, List.getLastD_eq_getLast?, List.getLast?_eq_getElem?]

theorem pyGetPair_before_append (l1 : List (Int × Int)) (h : l1 ≠ [])
    (l2 : List (Int × Int)) :
    pyGetPair (l1 ++ l2) ((l1.length : Int) - 1) = l1.getLastD (0, 0) := by
  have hlen : 1 ≤ l1.length := by
    cases l1 with
    | nil => exact absurd rfl h
    | cons x xs => simp
  unfold pyGetPair
  rw [if_neg (by omega)]
  rw [if_neg (show ¬ ((l1.length : Int) - 1 < 0) by omega)]
  have h1 : ((l1.length : Int) - 1).toNat = l1.length - 1 := by omega
  rw [h1, List.getD_eq_getElem?_getD, List.getElem?_append_left (by omega),
    ← List.getD_eq_getElem?_getD _ _ (0, 0), getD_length_sub_one_eq_getLastD l1 h]

theorem pyGetPair_neg_one (l : List (Int × Int)) (h : l ≠ []) :
    pyGetPair l (-1) = l.getLastD (0, 0) := by
  have hlen : 1 ≤ l.length := by
    cases l with
    | nil => exact absurd rfl h
    | cons x xs => simp
  unfold pyGetPair
  rw [if_neg (by omega)]
  rw [if_pos (show (-1 : Int) < 0 by omega)]
  have h1 : ((-1 : Int) + l.length).toNat = l.length - 1 := by omega
  rw [h1, List.getD_eq_getElem?_getD, ← List.getD_eq_getElem?_getD _ _ (0, 0),
    getD_length_sub_one_eq_getLastD l h]

/-- `reportCore` when every tracked address is ≤ the reported address
(the reverse scan finds nothing): ignore, or insert at the end. -/
theorem reportCore_eval_high (l1 : List (Int × Int)) (t : DifferencesTracker)
    (address offset : Int) (h1 : ∀ p ∈ l1, p.1 ≤ address) (hl1 : l1 ≠ []) :
    reportCore l1 t address offset =
      if offset = (l1.getLastD (0, 0)).2 then .ok (t, false)
      else .ok ({ t with known_address_offsets := l1 ++ [(address, offset)] }, true) := by
  unfold reportCore
  have heife : entry_index_from_end l1 address = none := by
    have := eife_split address l1 [] h1 (by intro p hp; cases hp)
    simpa using this
  rw [heife]
  dsimp only
  rw [pyGetPair_neg_one l1 hl1]
  by_cases ho : offset = (l1.getLastD (0, 0)).2
  · rw [if_pos ho, if_pos ho]
  · rw [if_neg ho, if_neg ho]
    have : pyInsertPair l1 (l1.length : Int) (address, offset) = l1 ++ [(address, offset)] := by
      have := pyInsertPair_at_append l1 [] (address, offset)
      simpa using this
    rw [this]

/-- `reportCore` when the reverse scan finds a first entry `q` past the
reported address: push `q` backward, ignore, or insert before `q`. -/
theorem reportCore_eval_mid (l1 : List (Int × Int)) (q : Int × Int) (qs : List (Int × Int))
    (t : DifferencesTracker) (address offset : Int)
    (h1 : ∀ p ∈ l1, p.1 ≤ address) (h2 : ∀ p ∈ q :: qs, address < p.1) (hl1 : l1 ≠ []) :
    reportCore (l1 ++ q :: qs) t address offset =
      if offset = q.2 then
        .ok ({ t with known_address_offsets := l1 ++ (address, offset) :: qs }, false)
      else if offset = (l1.getLastD (0, 0)).2 then .ok (t, false)
      else .ok ({ t with known_address_offsets := l1 ++ (address, offset) :: q :: qs }, true) := by
  unfold reportCore
  have heife : entry_index_from_end (l1 ++ q :: qs) address = some ((q :: qs).length - 1) := by
    rw [eife_split address l1 (q :: qs) h1 h2]
    simp
  rw [heife]
  dsimp only
  have hid : ((l1 ++ q :: qs).length : Int) - (((q :: qs).length - 1 : Nat) : Int) - 1 =
      (l1.length : Int) := by
    simp only [List.length_append, List.length_cons]
    push_cast
    omega
  rw [hid, pyGetPair_at_append l1 q qs, pyGetPair_before_append l1 hl1 (q :: qs)]
  by_cases hn : offset = q.2
  · rw [if_pos hn, if_pos hn, pySetPair_at_append l1 q qs]
  · rw [if_neg hn, if_neg hn]
    by_cases hp : offset = (l1.getLastD (0, 0)).2
    · rw [if_pos hp, if_pos hp]
    · rw [if_neg hp, if_neg hp, pyInsertPair_at_append l1 (q :: qs) (address, offset)]

/-! ## Claim C1: redundant reports -/

/-- A report on a tracker with a nonempty breakpoint sequence that passes
the bounds check runs `reportCore`. -/
theorem report_unfold (t : DifferencesTracker) (address offset : Int)
    (hne : t.known_address_offsets ≠ [])
    (hb : t.first_address ≤ address ∧ address < t.last_address) :
    report_offset_at_address t address offset =
      reportCore t.known_address_offsets t address offset := by
  unfold report_offset_at_address
  match hl : t.known_address_offsets with
  | [] => exact absurd hl hne
  | p :: rest =>
    dsimp only
    rw [if_neg (not_not_intro hb), ← hl]

/-- C1 (amended): for an in-bounds report whose offset equals
`expected_offset_at(address)` on a strictly increasing tracker, the call
returns `False`; and the breakpoint sequence is unchanged provided the
offset also differs from the offset of the entry the reverse scan found
just after the address (otherwise that entry is pulled backward to the
reported address — see the counterexample). -/
theorem report_redundant (t : DifferencesTracker) (address offset : Int)
    (hs : AddrSorted t.known_address_offsets)
    (hb : t.first_address ≤ address ∧ address < t.last_address)
    (hexp : expected_offset_at t.known_address_offsets address = some offset) :
    (∃ t', report_offset_at_address t address offset = .ok (t', false)) ∧
    ((∀ k, entry_index_from_end t.known_address_offsets address = some k →
        (pyGetPair t.known_address_offsets
          ((t.known_address_offsets.length : Int) - (k : Int) - 1)).2 ≠ offset) →
      report_offset_at_address t address offset = .ok (t, false)) := by
  have hne : t.known_address_offsets ≠ [] := by
    intro hemp
    rw [hemp] at hexp
    exact Option.noConfusion hexp
  obtain ⟨x, xs, hl⟩ : ∃ x xs, t.known_address_offsets = x :: xs := by
    match hl : t.known_address_offsets, hne with
    | x :: xs, _ => exact ⟨x, xs, rfl⟩
  have hx : x.1 ≤ address := by
    have := hb.1
    unfold DifferencesTracker.first_address at this
    rw [hl] at this
    simpa using this
  have hsplit := List.takeWhile_append_dropWhile (fun r : Int × Int => decide (r.1 ≤ address))
    t.known_address_offsets
  have h1 := mem_takeWhile_le address t.known_address_offsets
  have h2 := mem_dropWhile_gt address t.known_address_offsets hs
  have hl1ne : t.known_address_offsets.takeWhile (fun r : Int × Int => decide (r.1 ≤ address)) ≠
      [] := by
    rw [hl, List.takeWhile_cons, if_pos (by simpa using hx)]
    simp
  -- the scan must find an entry past the address, else `expected_offset_at` is `none`
  obtain ⟨q, qs, hl2⟩ : ∃ q qs,
      t.known_address_offsets.dropWhile (fun r : Int × Int => decide (r.1 ≤ address)) = q :: qs := by
    match hd : t.known_address_offsets.dropWhile (fun r : Int × Int => decide (r.1 ≤ address)) with
    | q :: qs => exact ⟨q, qs, rfl⟩
    | [] =>
      exfalso
      unfold expected_offset_at at hexp
      conv at hexp => rw [← hsplit, hd]
      rw [expectedAux_split address _ [] _ h1 (by intro p hp; cases hp)] at hexp
      simp at hexp
  -- the expected offset is the last entry at or before the address
  have hoff : offset =
      ((t.known_address_offsets.takeWhile
        (fun r : Int × Int => decide (r.1 ≤ address))).getLastD (0, 0)).2 := by
    unfold expected_offset_at at hexp
    conv at hexp => rw [← hsplit, hl2]
    rw [expectedAux_split address _ (q :: qs) _ h1 (hl2 ▸ h2)] at hexp
    rw [if_neg (by simp), if_neg (by simpa using hl1ne)] at hexp
    exact (Option.some.inj hexp).symm
  have hcore : reportCore t.known_address_offsets t address offset =
      if offset = q.2 then
        .ok ({ t with known_address_offsets :=
          t.known_address_offsets.takeWhile (fun r : Int × Int => decide (r.1 ≤ address)) ++
            (address, offset) :: qs }, false)
      else if offset = ((t.known_address_offsets.takeWhile
            (fun r : Int × Int => decide (r.1 ≤ address))).getLastD (0, 0)).2 then
        .ok (t, false)
      else
        .ok ({ t with known_address_offsets :=
          t.known_address_offsets.takeWhile (fun r : Int × Int => decide (r.1 ≤ address)) ++
            (address, offset) :: q :: qs }, true) := by
    conv_lhs => rw [← hsplit, hl2]
    exact reportCore_eval_mid _ q qs t address offset h1 (hl2 ▸ h2) hl1ne
  rw [report_unfold t address offset hne hb, hcore]
  constructor
  · by_cases hq : offset = q.2
    · rw [if_pos hq]
      exact ⟨_, rfl⟩
    · rw [if_neg hq, if_pos hoff]
      exact ⟨_, rfl⟩
  · intro hnext
    have heife : entry_index_from_end t.known_address_offsets address =
        some ((q :: qs).length - 1) := by
      conv_lhs => rw [← hsplit, hl2]
      rw [eife_split address _ _ h1 (hl2 ▸ h2)]
      simp
    have hq : (pyGetPair t.known_address_offsets
        ((t.known_address_offsets.length : Int) - (((q :: qs).length - 1 : Nat) : Int) - 1)).2 ≠
        offset := hnext _ heife
    have hqv : pyGetPair t.known_address_offsets
        ((t.known_address_offsets.length : Int) - (((q :: qs).length - 1 : Nat) : Int) - 1) =
        q := by
      conv_lhs => rw [← hsplit, hl2]
      have hid : (((t.known_address_offsets.takeWhile
            (fun r : Int × Int => decide (r.1 ≤ address))) ++ q :: qs).length : Int) -
          (((q :: qs).length - 1 : Nat) : Int) - 1 =
          ((t.known_address_offsets.takeWhile
            (fun r : Int × Int => decide (r.1 ≤ address))).length : Int) := by
        simp only [List.length_append, List.length_cons]
        push_cast
        omega
      rw [hid]
      exact pyGetPair_at_append _ q qs
    rw [hqv] at hq
    rw [if_neg (fun hcon => hq hcon.symm), if_pos hoff]

/-- C1, counterexample to the claim as stated: on the tracker built as
`DifferencesTracker(0, 5, 10, 5)` (equal boundary offsets, as happens
whenever the two sections have equal size), the in-bounds report `(3, 5)`
has `offset = expected_offset_at(3) = 5`, yet the breakpoint sequence
CHANGES from `[(0,5),(10,5)]` to `[(0,5),(3,5)]`: the offset also equals
the next breakpoint's offset, so that breakpoint is pulled backward.  The
call still returns `False`. -/
theorem report_redundant_counterexample :
    expected_offset_at (DifferencesTracker.init 0 5 10 5).known_address_offsets 3 = some 5 ∧
    (DifferencesTracker.init 0 5 10 5).first_address ≤ 3 ∧
    (3 : Int) < (DifferencesTracker.init 0 5 10 5).last_address ∧
    report_offset_at_address (DifferencesTracker.init 0 5 10 5) 3 5 =
      .ok (⟨[(0, 5), (3, 5)], 10, 5⟩, false) ∧
    (⟨[(0, 5), (3, 5)], 10, 5⟩ : DifferencesTracker) ≠ DifferencesTracker.init 0 5 10 5 :=
  ⟨by decide, by decide, by decide, by rfl, by decide⟩

/-- C1, witness for the amended claim: on the tracker
`DifferencesTracker(0, 1, 10, 2)`, reporting `(3, 1)` (the expected offset
at 3, different from the next breakpoint's offset 2) leaves the tracker
unchanged and returns `False`. -/
theorem report_redundant_witness :
    report_offset_at_address (DifferencesTracker.init 0 1 10 2) 3 1 =
      .ok (DifferencesTracker.init 0 1 10 2, false) :=
  (report_redundant (DifferencesTracker.init 0 1 10 2) 3 1 (by decide) (by decide) (by decide)).2
    (by
      intro k hk
      have h0 : entry_index_from_end
          (DifferencesTracker.init 0 1 10 2).known_address_offsets 3 = some 0 := by rfl
      rw [h0] at hk
      obtain rfl : (0 : Nat) = k := Option.some.inj hk
      decide)

/-! ## Claim C2: strict monotonicity of the breakpoint addresses -/

/-- C2 (amended): a successful report at an address that is not already a
breakpoint address keeps the breakpoint address sequence strictly
increasing.  (A report at an existing breakpoint address can duplicate that
address — see the counterexample.) -/
theorem report_preserves_sorted (t : DifferencesTracker) (address offset : Int)
    (t' : DifferencesTracker) (c : Bool)
    (hs : AddrSorted t.known_address_offsets)
    (hnew : ∀ p ∈ t.known_address_offsets, p.1 ≠ address)
    (hok : report_offset_at_address t address offset = .ok (t', c)) :
    AddrSorted t'.known_address_offsets := by
  have hne : t.known_address_offsets ≠ [] := by
    intro hemp
    unfold report_offset_at_address at hok
    rw [hemp] at hok
    exact Except.noConfusion hok
  obtain ⟨x, xs, hl⟩ : ∃ x xs, t.known_address_offsets = x :: xs := by
    match hl : t.known_address_offsets, hne with
    | x :: xs, _ => exact ⟨x, xs, rfl⟩
  have hb : t.first_address ≤ address ∧ address < t.last_address := by
    by_contra hnb
    unfold report_offset_at_address at hok
    rw [hl] at hok
    dsimp only at hok
    rw [if_pos hnb] at hok
    exact Except.noConfusion hok
  have hsplit := List.takeWhile_append_dropWhile (fun r : Int × Int => decide (r.1 ≤ address))
    t.known_address_offsets
  have h1 := mem_takeWhile_le address t.known_address_offsets
  have h2 := mem_dropWhile_gt address t.known_address_offsets hs
  have hx : x.1 ≤ address := by
    have := hb.1
    unfold DifferencesTracker.first_address at this
    rw [hl] at this
    simpa using this
  have hl1ne : t.known_address_offsets.takeWhile (fun r : Int × Int => decide (r.1 ≤ address)) ≠
      [] := by
    rw [hl, List.takeWhile_cons, if_pos (by simpa using hx)]
    simp
  have hs1 : AddrSorted
      (t.known_address_offsets.takeWhile (fun r : Int × Int => decide (r.1 ≤ address))) :=
    List.Pairwise.sublist (List.takeWhile_sublist _) hs
  have hlt1 : ∀ p ∈ t.known_address_offsets.takeWhile
      (fun r : Int × Int => decide (r.1 ≤ address)), p.1 < address := by
    intro p hp
    have hle := h1 p hp
    have hmem : p ∈ t.known_address_offsets := (List.takeWhile_sublist _).subset hp
    have := hnew p hmem
    omega
  rw [report_unfold t address offset hne hb] at hok
  cases hd : t.known_address_offsets.dropWhile (fun r : Int × Int => decide (r.1 ≤ address)) with
  | nil =>
    -- every entry is at or before the address: ignore or append
    have hl1eq : t.known_address_offsets.takeWhile (fun r : Int × Int => decide (r.1 ≤ address)) =
        t.known_address_offsets := by
      conv_rhs => rw [← hsplit, hd]
      simp
    have hcore := reportCore_eval_high t.known_address_offsets t address offset
      (by rw [← hl1eq]; exact h1) hne
    rw [hcore] at hok
    split_ifs at hok
    · injection hok with hpair
      injection hpair with hT hB
      subst hT
      exact hs
    · injection hok with hpair
      injection hpair with hT hB
      subst hT
      show AddrSorted (t.known_address_offsets ++ [(address, offset)])
      rw [AddrSorted, List.pairwise_append]
      refine ⟨hs, List.pairwise_singleton _ _, ?_⟩
      intro a ha b hbm
      rcases List.mem_singleton.mp hbm with rfl
      have := hlt1 a (by rw [hl1eq]; exact ha)
      simpa using this
  | cons q qs =>
    have h2' : ∀ p ∈ q :: qs, address < p.1 := hd ▸ h2
    have hqs : AddrSorted (q :: qs) := by
      rw [← hd]
      exact List.Pairwise.sublist (List.dropWhile_sublist _) hs
    have hcore := reportCore_eval_mid _ q qs t address offset h1 h2' hl1ne
    rw [show t.known_address_offsets.takeWhile (fun r : Int × Int => decide (r.1 ≤ address)) ++
        q :: qs = t.known_address_offsets from by rw [← hd, hsplit]] at hcore
    rw [hcore] at hok
    have hcross : ∀ a ∈ t.known_address_offsets.takeWhile
        (fun r : Int × Int => decide (r.1 ≤ address)),
        ∀ b ∈ (address, offset) :: q :: qs, a.1 < b.1 := by
      intro a ha b hbm
      rcases List.mem_cons.mp hbm with rfl | hbm'
      · exact hlt1 a ha
      · have hgt := h2' b hbm'
        have hle := h1 a ha
        omega
    split_ifs at hok
    · -- push forward: the next entry is pulled back to the reported address
      injection hok with hpair
      injection hpair with hT hB
      subst hT
      show AddrSorted (t.known_address_offsets.takeWhile
        (fun r : Int × Int => decide (r.1 ≤ address)) ++ (address, offset) :: qs)
      rw [AddrSorted, List.pairwise_append]
      refine ⟨hs1, List.pairwise_cons.mpr ⟨?_, hqs.tail⟩, ?_⟩
      · intro p hp
        exact h2' p (List.mem_cons_of_mem q hp)
      · intro a ha b hbm
        rcases List.mem_cons.mp hbm with rfl | hbm'
        · exact hlt1 a ha
        · exact hcross a ha b (List.mem_cons_of_mem _ (List.mem_cons_of_mem q hbm'))
    · -- redundant: unchanged
      injection hok with hpair
      injection hpair with hT hB
      subst hT
      exact hs
    · -- new division inserted before the found entry
      injection hok with hpair
      injection hpair with hT hB
      subst hT
      show AddrSorted (t.known_address_offsets.takeWhile
        (fun r : Int × Int => decide (r.1 ≤ address)) ++ (address, offset) :: q :: qs)
      rw [AddrSorted, List.pairwise_append]
      refine ⟨hs1, List.pairwise_cons.mpr ⟨h2', hqs⟩, hcross⟩

/-- C2, counterexample to the claim as stated: on the strictly increasing
tracker `DifferencesTracker(0, 5, 10, 7)`, the in-bounds report `(0, 7)`
(at the EXISTING breakpoint address 0, with the next breakpoint's offset)
pulls the next breakpoint back to address 0, leaving the sequence
`[(0,5),(0,7)]`, which is not strictly increasing. -/
theorem report_sorted_counterexample :
    AddrSorted (DifferencesTracker.init 0 5 10 7).known_address_offsets ∧
    (DifferencesTracker.init 0 5 10 7).first_address ≤ 0 ∧
    (0 : Int) < (DifferencesTracker.init 0 5 10 7).last_address ∧
    report_offset_at_address (DifferencesTracker.init 0 5 10 7) 0 7 =
      .ok (⟨[(0, 5), (0, 7)], 10, 7⟩, false) ∧
    ¬ AddrSorted [((0 : Int), (5 : Int)), (0, 7)] :=
  ⟨by decide, by decide, by decide, by rfl, by decide⟩

/-- C2, witness for the amended claim: reporting `(3, 5)` (a fresh address)
on `DifferencesTracker(0, 1, 10, 2)` inserts a division and the sequence
stays strictly increasing. -/
theorem report_preserves_sorted_witness :
    AddrSorted ((⟨[(0, 1), (3, 5), (10, 2)], 10, 2⟩ : DifferencesTracker)).known_address_offsets :=
  report_preserves_sorted (DifferencesTracker.init 0 1 10 2) 3 5
    ⟨[(0, 1), (3, 5), (10, 2)], 10, 2⟩ true (by decide) (by decide) (by rfl)

/-! ## The cross-reference aligner (`src/auto_align_by_xrefs.py`) -/

/-- `probably_spurious` (lines 43-48): Ghidra invents xrefs dest addresses
whose bottom 16 bits are zero (`addr & 0xffff == 0`; Python's masking of an
int agrees with the nonnegative remainder `% 65536`). -/
def probably_spurious (addr : Int) : Bool := addr % 65536 == 0

/-- The state of the reverse-map construction (lines 88-101): the dict
`reverse_xrefs_2` modelled as a partial map, and the `ambiguous` set as a
predicate. -/
structure RevState where
  rev : Int → Option Int
  amb : Int → Bool

/-- One iteration of the inner loop of the graph inversion (lines 92-101):
skip an origin already known ambiguous; an origin already in the reverse
map becomes ambiguous and is deleted; otherwise record `origin → dest`. -/
def process_one (dest : Int) (s : RevState) (f : Int) : RevState :=
  if s.amb f then s
  else
    match s.rev f with
    | some _ =>
      ⟨fun k => if k = f then none else s.rev k, fun k => if k = f then true else s.amb k⟩
    | none => ⟨fun k => if k = f then some dest else s.rev k, s.amb⟩

/-- The inner loop over one destination's origin list. -/
def process_froms (dest : Int) : RevState → List Int → RevState
  | s, [] => s
  | s, f :: fs => process_froms dest (process_one dest s f) fs

/-- The outer loop of the graph inversion over `xrefs_2.items()`
(insertion-ordered), skipping spurious destinations (line 91). -/
def invert_pass : RevState → List (Int × List Int) → RevState
  | s, [] => s
  | s, (dest, froms) :: rest =>
      invert_pass (if probably_spurious dest then s else process_froms dest s froms) rest

def initRevState : RevState := ⟨fun _ => none, fun _ => false⟩

/-- The whole graph inversion (lines 88-101). -/
def invert_xrefs (xrefs2 : List (Int × List Int)) : RevState :=
  invert_pass initRevState xrefs2

/-- The votes cast for one destination `dest` of version 1 (lines 109-115):
for each origin inside the already-aligned range, translate it through the
external mapper (`none` models a dropped/unmapped address, matching
`None in reverse_xrefs_2` being false) and, if the translated origin is in
the reverse map, vote for its destination.  The external address mapper is
out of scope (spec §6: a black-box `translate(address) -> optional
address`), so it is a parameter. -/
def votes_for (rev : Int → Option Int) (mapper : Int → Option Int) (from_range : Int × Int) :
    List Int → List Int
  | [] => []
  | f :: rest =>
    let tail := votes_for rev mapper from_range rest
    if from_range.1 ≤ f ∧ f < from_range.2 then
      match mapper f with
      | some fc =>
        match rev fc with
        | some dest => dest :: tail
        | none => tail
      | none => tail
    else tail

/-- Total number of times an origin is listed across version 2's
non-spurious origin lists (the measure used by claim C10). -/
def origin_count (xrefs2 : List (Int × List Int)) (o : Int) : Nat :=
  (xrefs2.map (fun p => if probably_spurious p.1 then 0 else p.2.count o)).sum

/-- How far the inversion has gotten with origin `o`: 0 = unseen, 1 = in
the reverse map, 2 = ambiguous. -/
def originStatus (s : RevState) (o : Int) : Nat :=
  if s.amb o then 2 else if (s.rev o).isSome then 1 else 0

theorem originStatus_le_two (s : RevState) (o : Int) : originStatus s o ≤ 2 := by
  unfold originStatus
  split_ifs <;> omega

theorem process_one_at_other (dest : Int) (s : RevState) (f o : Int) (hfo : f ≠ o) :
    (process_one dest s f).rev o = s.rev o ∧ (process_one dest s f).amb o = s.amb o := by
  unfold process_one
  split_ifs with hamb
  · exact ⟨rfl, rfl⟩
  · cases hrev : s.rev f <;> dsimp only <;>
      exact ⟨by rw [if_neg (Ne.symm hfo)], by first | rfl | rw [if_neg (Ne.symm hfo)]⟩

theorem process_one_status_other (dest : Int) (s : RevState) (f o : Int) (hfo : f ≠ o) :
    originStatus (process_one dest s f) o = originStatus s o := by
  obtain ⟨h1, h2⟩ := process_one_at_other dest s f o hfo
  unfold originStatus
  rw [h1, h2]

theorem process_one_status_self (dest : Int) (s : RevState) (o : Int)
    (hlt : originStatus s o < 2) :
    originStatus (process_one dest s o) o = originStatus s o + 1 := by
  unfold originStatus at hlt ⊢
  by_cases hamb : s.amb o
  · rw [if_pos hamb] at hlt
    omega
  · unfold process_one
    rw [if_neg hamb]
    cases hrev : s.rev o <;> dsimp only <;> simp [hamb, hrev]

theorem process_one_status_mono (dest : Int) (s : RevState) (f o : Int) :
    originStatus s o ≤ originStatus (process_one dest s f) o := by
  by_cases hfo : f = o
  · subst hfo
    rcases lt_or_ge (originStatus s f) 2 with hlt | hge
    · rw [process_one_status_self dest s f hlt]
      omega
    · have hamb : s.amb f = true := by
        by_contra hno
        unfold originStatus at hge
        rw [if_neg hno] at hge
        split_ifs at hge <;> omega
      unfold process_one
      rw [if_pos hamb]
  · rw [process_one_status_other dest s f o hfo]

theorem process_froms_status_ge (dest o : Int) :
    ∀ (fs : List Int) (s : RevState),
      min (originStatus s o + fs.count o) 2 ≤ originStatus (process_froms dest s fs) o := by
  intro fs
  induction fs with
  | nil =>
    intro s
    unfold process_froms
    simp
  | cons f fs' ih =>
    intro s
    unfold process_froms
    by_cases hfo : f = o
    · subst hfo
      rcases lt_or_ge (originStatus s f) 2 with hlt | hge
      · have hstep := process_one_status_self dest s f hlt
        have := ih (process_one dest s f)
        rw [hstep] at this
        have hcnt : (f :: fs').count f = fs'.count f + 1 := by
          simp [List.count_cons]
        rw [hcnt]
        omega
      · have hs2 : originStatus s f = 2 := le_antisymm (originStatus_le_two s f) hge
        have hmono := process_one_status_mono dest s f f
        have := ih (process_one dest s f)
        have hle2 := originStatus_le_two (process_froms dest (process_one dest s f) fs') f
        omega
    · have hstep := process_one_status_other dest s f o hfo
      have := ih (process_one dest s f)
      rw [hstep] at this
      have hcnt : (f :: fs').count o = fs'.count o := by
        simp [List.count_cons, hfo]
      rw [hcnt]
      exact this

theorem invert_pass_status_ge (o : Int) :
    ∀ (entries : List (Int × List Int)) (s : RevState),
      min (originStatus s o + origin_count entries o) 2 ≤
        originStatus (invert_pass s entries) o := by
  intro entries
  induction entries with
  | nil =>
    intro s
    unfold invert_pass origin_count
    simp
  | cons e rest ih =>
    intro s
    obtain ⟨dest, froms⟩ := e
    unfold invert_pass
    have hoc : origin_count ((dest, froms) :: rest) o =
        (if probably_spurious dest then 0 else froms.count o) + origin_count rest o := by
      unfold origin_count
      simp
    rw [hoc]
    by_cases hsp : probably_spurious dest
    · rw [if_pos hsp, if_pos hsp]
      simpa using ih s
    · rw [if_neg hsp, if_neg hsp]
      have h1 := process_froms_status_ge dest o froms s
      have h2 := ih (process_froms dest s froms)
      have h3 := originStatus_le_two (process_froms dest s froms) o
      have h4 := originStatus_le_two (invert_pass (process_froms dest s froms) rest) o
      omega

/-- The invariant tying the two components of the inversion state: an
ambiguous origin is not in the reverse map. -/
def RevInv (s : RevState) (o : Int) : Prop := s.amb o = true → s.rev o = none

theorem process_one_inv (dest : Int) (s : RevState) (f o : Int) (h : RevInv s o) :
    RevInv (process_one dest s f) o := by
  by_cases hfo : f = o
  · subst hfo
    unfold process_one
    split_ifs with hamb
    · exact h
    · cases hrev : s.rev f <;> dsimp only <;> intro hx
      · exact absurd hx (by simpa using hamb)
      · simp
  · obtain ⟨h1, h2⟩ := process_one_at_other dest s f o hfo
    intro hx
    rw [h2] at hx
    rw [h1]
    exact h hx

theorem process_froms_inv (dest o : Int) :
    ∀ (fs : List Int) (s : RevState), RevInv s o → RevInv (process_froms dest s fs) o := by
  intro fs
  induction fs with
  | nil => intro s h; exact h
  | cons f fs' ih =>
    intro s h
    exact ih (process_one dest s f) (process_one_inv dest s f o h)

theorem invert_pass_inv (o : Int) :
    ∀ (entries : List (Int × List Int)) (s : RevState),
      RevInv s o → RevInv (invert_pass s entries) o := by
  intro entries
  induction entries with
  | nil => intro s h; exact h
  | cons e rest ih =>
    intro s h
    obtain ⟨dest, froms⟩ := e
    unfold invert_pass
    by_cases hsp : probably_spurious dest
    · rw [if_pos hsp]
      exact ih s h
    · rw [if_neg hsp]
      exact ih _ (process_froms_inv dest o froms s h)

/-- An origin listed at least twice across the non-spurious origin lists is
absent from the final reverse map. -/
theorem rev_none_of_origin_count_two (xrefs2 : List (Int × List Int)) (o : Int)
    (h : 2 ≤ origin_count xrefs2 o) : (invert_xrefs xrefs2).rev o = none := by
  unfold invert_xrefs
  have hstat := invert_pass_status_ge o xrefs2 initRevState
  have h0 : originStatus initRevState o = 0 := rfl
  rw [h0] at hstat
  have h2 : originStatus (invert_pass initRevState xrefs2) o = 2 := by
    have hle := originStatus_le_two (invert_pass initRevState xrefs2) o
    omega
  have hamb : (invert_pass initRevState xrefs2).amb o = true := by
    by_contra hno
    unfold originStatus at h2
    rw [if_neg hno] at h2
    split_ifs at h2
    omega
  exact invert_pass_inv o xrefs2 initRevState (fun hcon => by cases hcon) hamb

/-- An origin absent from the reverse map casts no vote: filtering out the
origins that translate to it changes nothing. -/
theorem votes_filter_of_rev_none (rev : Int → Option Int) (mapper : Int → Option Int)
    (from_range : Int × Int) (o : Int) (ho : rev o = none) :
    ∀ froms : List Int, votes_for rev mapper from_range froms =
      votes_for rev mapper from_range (froms.filter (fun f => !(mapper f == some o))) := by
  intro froms
  induction froms with
  | nil => rfl
  | cons f rest ih =>
    by_cases hmap : mapper f = some o
    · have hfilter : (f :: rest).filter (fun f => !(mapper f == some o)) =
          rest.filter (fun f => !(mapper f == some o)) := by
        rw [List.filter_cons]
        simp [hmap]
      rw [hfilter, ← ih]
      conv_lhs => rw [votes_for]
      by_cases hrange : from_range.1 ≤ f ∧ f < from_range.2
      · simp only [if_pos hrange, hmap, ho]
      · simp only [if_neg hrange]
    · have hfilter : (f :: rest).filter (fun f => !(mapper f == some o)) =
          f :: rest.filter (fun f => !(mapper f == some o)) := by
        rw [List.filter_cons]
        simp [hmap]
      rw [hfilter]
      conv_lhs => rw [votes_for]
      conv_rhs => rw [votes_for]
      simp only [ih]

/-! ## Claims C7 and C10: ambiguity exclusion in the graph inversion -/

/-- C7 (amended): an origin that appears as a source for two distinct
NON-SPURIOUS destinations in version 2's graph ends (and stays) outside the
reverse map — once ambiguous it is skipped, never reinserted even when one
of its destinations appears alone later — and therefore never contributes a
vote to any destination's counter.  (If one of the two destinations is
spurious, its whole entry is skipped and the origin is not ambiguous; see
the counterexample.) -/
theorem ambiguous_origin_never_votes (xrefs2 : List (Int × List Int))
    (t1 t2 : Int) (fs1 fs2 : List Int) (o : Int)
    (h1 : (t1, fs1) ∈ xrefs2) (h2 : (t2, fs2) ∈ xrefs2) (htt : t1 ≠ t2)
    (hsp1 : probably_spurious t1 = false) (hsp2 : probably_spurious t2 = false)
    (ho1 : o ∈ fs1) (ho2 : o ∈ fs2) :
    (invert_xrefs xrefs2).rev o = none ∧
    (∀ (mapper : Int → Option Int) (from_range : Int × Int) (froms : List Int),
      votes_for (invert_xrefs xrefs2).rev mapper from_range froms =
        votes_for (invert_xrefs xrefs2).rev mapper from_range
          (froms.filter (fun f => !(mapper f == some o)))) := by
  have hcount : 2 ≤ origin_count xrefs2 o := by
    have hc1 : 1 ≤ fs1.count o := List.one_le_count_iff.mpr ho1
    have hc2 : 1 ≤ fs2.count o := List.one_le_count_iff.mpr ho2
    obtain ⟨sl, tl, rfl⟩ := List.mem_iff_append.mp h1
    have hsplitc : origin_count (sl ++ (t1, fs1) :: tl) o =
        origin_count sl o + fs1.count o + origin_count tl o := by
      unfold origin_count
      rw [List.map_append, List.sum_append, List.map_cons, List.sum_cons, hsp1]
      simp only [Bool.false_eq_true, if_false]
      omega
    rw [hsplitc]
    rcases List.mem_append.mp h2 with hmem | hmem
    · have hle : (if probably_spurious t2 then 0 else fs2.count o) ≤ origin_count sl o :=
        List.le_sum_of_mem (List.mem_map_of_mem _ hmem)
      rw [hsp2] at hle
      simp only [Bool.false_eq_true, if_false] at hle
      omega
    · rcases List.mem_cons.mp hmem with heq | hmem'
      · exact absurd (congrArg Prod.fst heq).symm htt
      · have hle : (if probably_spurious t2 then 0 else fs2.count o) ≤ origin_count tl o :=
          List.le_sum_of_mem (List.mem_map_of_mem _ hmem')
        rw [hsp2] at hle
        simp only [Bool.false_eq_true, if_false] at hle
        omega
  have hnone := rev_none_of_origin_count_two xrefs2 o hcount
  exact ⟨hnone, fun mapper from_range froms =>
    votes_filter_of_rev_none _ mapper from_range o hnone froms⟩

/-- C7, counterexample to the claim as stated: origin 5 appears as a source
for the two distinct destinations 0x10000 and 0x20001 in version 2's graph,
but 0x10000 is spurious (bottom 16 bits zero) so its whole entry is
skipped; origin 5 therefore stays in the reverse map, mapping to 0x20001,
and casts a vote (identity mapper, range `[0, 10)`). -/
theorem ambiguous_origin_counterexample :
    (65536 : Int) ≠ 131073 ∧
    (5 : Int) ∈ [(5 : Int)] ∧
    (invert_xrefs [((65536 : Int), [(5 : Int)]), (131073, [5])]).rev 5 = some 131073 ∧
    votes_for (invert_xrefs [((65536 : Int), [(5 : Int)]), (131073, [5])]).rev
      (fun a => some a) (0, 10) [5] = [131073] :=
  ⟨by decide, by decide, by rfl, by rfl⟩

/-- C7, witness for the amended claim: origin 5 references the two distinct
non-spurious destinations 1 and 2, so it is excluded from the reverse
map. -/
theorem ambiguous_origin_never_votes_witness :
    (invert_xrefs [((1 : Int), [(5 : Int)]), (2, [5])]).rev 5 = none :=
  (ambiguous_origin_never_votes [((1 : Int), [(5 : Int)]), (2, [5])] 1 2 [5] [5] 5
    (by decide) (by decide) (by decide) (by rfl) (by rfl) (by decide) (by decide)).1

/-- C10: an origin listed more than once in total across version 2's
non-spurious origin lists is excluded from the reverse map and never votes,
even when all its occurrences reference one single destination (an origin
twice in the same destination's list is still marked ambiguous). -/
theorem repeated_origin_excluded (xrefs2 : List (Int × List Int)) (o : Int)
    (h : 2 ≤ origin_count xrefs2 o) :
    (invert_xrefs xrefs2).rev o = none ∧
    (∀ (mapper : Int → Option Int) (from_range : Int × Int) (froms : List Int),
      votes_for (invert_xrefs xrefs2).rev mapper from_range froms =
        votes_for (invert_xrefs xrefs2).rev mapper from_range
          (froms.filter (fun f => !(mapper f == some o)))) := by
  have hnone := rev_none_of_origin_count_two xrefs2 o h
  exact ⟨hnone, fun mapper from_range froms =>
    votes_filter_of_rev_none _ mapper from_range o hnone froms⟩

/-- C10, witness: origin 5 listed twice in destination 1's list (one single
destination) is still excluded from the reverse map. -/
theorem repeated_origin_excluded_witness :
    (invert_xrefs [((1 : Int), [(5 : Int), 5])]).rev 5 = none :=
  (repeated_origin_excluded [((1 : Int), [(5 : Int), 5])] 5 (by decide)).1

/-! ## Claim C8: the range-emission pass of the cross-reference aligner -/

/-- Keep the first occurrence of each element, in order: the key order of a
`collections.Counter` built by successive `update` calls. -/
def firstSeen (l : List Int) : List Int :=
  l.foldl (fun acc x => if x ∈ acc then acc else acc ++ [x]) []

/-- `counter.most_common(1)[0][0]`: the most-voted destination, ties broken
by first insertion (Python's `sorted` is stable and `Counter` preserves
first-insertion key order). -/
def most_common_head (votes : List Int) : Option Int :=
  (firstSeen votes).foldl
    (fun best x =>
      match best with
      | none => some x
      | some b => if votes.count b < votes.count x then some x else best)
    none

/-- The running state of the emission loop (lines 104-135):
`current_range_start`, `current_range_delta`, and the `aligned-range` lines
printed so far, each as `(range start, inclusive range end, delta)` with
`none` standing for the `*` start marker. -/
structure EmitState where
  current_range_start : Option Int
  current_range_delta : Option Int
  output : List (Option Int × Int × Int)
deriving DecidableEq

/-- One iteration of the emission loop for a destination `dest` whose
winning delta is `delta` (lines 122-135): a first sample fixes the running
delta; a sample equal to the running delta is absorbed; a differing sample
more than `0x10000` away is discarded as a probable mistake (`continue`);
otherwise the closed range is printed and a new range starts at `dest`. -/
def emit_step (s : EmitState) (dest : Int) (delta : Int) : EmitState :=
  match s.current_range_delta with
  | none => { s with current_range_delta := some delta }
  | some d0 =>
    if delta = d0 then s
    else if 65536 < (delta - d0).natAbs then s
    else ⟨some dest, some delta, s.output ++ [(s.current_range_start, dest - 1, d0)]⟩

/-- Dict lookup `xrefs_1[dest]` (keys unique). -/
def assocFroms (xrefs1 : List (Int × List Int)) (dest : Int) : List Int :=
  match xrefs1.find? (fun p => p.1 == dest) with
  | some p => p.2
  | none => []

/-- The voting-and-emission loop (lines 104-135): destinations of version 1
in ascending order, restricted to `to_range`; votes collected through the
reverse map; destinations with no votes skipped; each winning delta fed to
`emit_step`.  (The final open-ended line printed after the loop, lines
137-143, is not part of the loop state.) -/
def align_emit (xrefs1 : List (Int × List Int)) (rev : Int → Option Int)
    (mapper : Int → Option Int) (from_range to_range : Int × Int) : EmitState :=
  ((xrefs1.map Prod.fst).mergeSort (· ≤ ·)).foldl
    (fun st dest =>
      if ¬ (to_range.1 ≤ dest ∧ dest < to_range.2) then st
      else
        match most_common_head (votes_for rev mapper from_range (assocFroms xrefs1 dest)) with
        | none => st
        | some winner => emit_step st dest (winner - dest))
    ⟨none, none, []⟩

/-- C8: a destination whose winning delta differs from the current running
delta by strictly more than `0x10000` is discarded: no range line is
emitted and the running range's start address and delta are unchanged (the
whole state is unchanged). -/
theorem emit_step_discards_outlier (s : EmitState) (dest delta d0 : Int)
    (hd : s.current_range_delta = some d0) (hfar : 65536 < (delta - d0).natAbs) :
    emit_step s dest delta = s := by
  unfold emit_step
  rw [hd]
  dsimp only
  by_cases heq : delta = d0
  · rw [if_pos heq]
  · rw [if_neg heq, if_pos hfar]

/-- C8, witness: with a running delta 0 and a winning delta 100000 (further
than 0x10000 away), the state is untouched. -/
theorem emit_step_discards_outlier_witness :
    emit_step ⟨some 7, some 0, []⟩ 5 100000 = ⟨some 7, some 0, []⟩ :=
  emit_step_discards_outlier ⟨some 7, some 0, []⟩ 5 100000 0 rfl (by decide)

/-! ## The recursive range refiner (`find_division_points_in_range`, lines 150-202) -/

theorem pySlice_eq_nil_of_le (l : List Nat) (s t : Int)
    (h : t ≤ -(l.length : Int)) : pySlice l s t = [] := by
  unfold pySlice pySliceIdx
  have hlen : (0 : Int) ≤ l.length := Int.ofNat_nonneg _
  have hstop : (if t < 0 then t + l.length else t).toNat.min l.length = 0 := by
    split_ifs with ht
    · have hz : (t + l.length).toNat = 0 := by omega
      simp [hz]
    · have hz : t.toNat = 0 := by omega
      simp [hz]
  rw [hstop]
  simp

theorem check_match_at_ne_none_bound (data_a data_b : List Nat) (off size : Int)
    (h : check_match_at data_a data_b off size ≠ none) :
    -(data_a.length : Int) < off + size := by
  by_contra hle
  push_neg at hle
  apply h
  unfold check_match_at
  rw [pySlice_eq_nil_of_le data_a off (off + size) hle]
  simp

/-- `int(2 ** pow2)` for `pow2` in `[10, 9.5, 9, 8.5, 8, 7]`:
`int(2 ** 9.5) = int(724.077...) = 724` and `int(2 ** 8.5) = 362`. -/
def moveJumps : List Int := [1024, 724, 512, 362, 256, 128]

/-- One pass of the `while moved_left` body (lines 163-173): try each jump
amount in order; on a unique match at `end_offset - jump` whose implied
offset equals the expected one, move the boundary left and remember that
something moved. -/
def move_left_pass (data_a data_b : List Nat) (expected : Option Int) :
    List Int → Bool → Int → Bool × Int
  | [], moved, e => (moved, e)
  | j :: js, moved, e =>
    let new_end := e - j
    match check_match_at data_a data_b new_end (j / 4) with
    | some m =>
      if expected = some (m - new_end) then
        move_left_pass data_a data_b expected js true new_end
      else
        move_left_pass data_a data_b expected js moved e
    | none => move_left_pass data_a data_b expected js moved e

theorem move_left_pass_spec (data_a data_b : List Nat) (expected : Option Int) :
    ∀ (js : List Int), (∀ j ∈ js, 128 ≤ j ∧ j ≤ 1024) →
      ∀ (moved : Bool) (e : Int) (m' : Bool) (e' : Int),
        move_left_pass data_a data_b expected js moved e = (m', e') →
        (m' = moved ∧ e' = e) ∨
          (m' = true ∧ e' ≤ e - 128 ∧ -(data_a.length : Int) - 256 < e') := by
  intro js
  induction js with
  | nil =>
    intro _ moved e m' e' heq
    unfold move_left_pass at heq
    obtain ⟨rfl, rfl⟩ : moved = m' ∧ e = e' := by
      constructor <;> [exact congrArg Prod.fst heq; exact congrArg Prod.snd heq]
    exact Or.inl ⟨rfl, rfl⟩
  | cons j js' ih =>
    intro hjs moved e m' e' hp
    have hj := hjs j (List.mem_cons_self j js')
    have hjs' : ∀ x ∈ js', 128 ≤ x ∧ x ≤ 1024 := fun x hx => hjs x (List.mem_cons_of_mem j hx)
    unfold move_left_pass at hp
    dsimp only at hp
    cases hm : check_match_at data_a data_b (e - j) (j / 4) with
    | none =>
      rw [hm] at hp
      exact ih hjs' moved e m' e' hp
    | some m =>
      rw [hm] at hp
      dsimp only at hp
      by_cases hexp : expected = some (m - (e - j))
      · rw [if_pos hexp] at hp
        have hbound : -(data_a.length : Int) < (e - j) + j / 4 :=
          check_match_at_ne_none_bound data_a data_b (e - j) (j / 4) (by rw [hm]; simp)
        have hj4 : j / 4 ≤ 256 := by omega
        rcases ih hjs' true (e - j) m' e' hp with ⟨hm', he'⟩ | ⟨hm', hle, hgt⟩
        · exact Or.inr ⟨hm', by omega, by omega⟩
        · exact Or.inr ⟨hm', by omega, hgt⟩
      · rw [if_neg hexp] at hp
        exact ih hjs' moved e m' e' hp

set_option linter.unusedVariables false in
/-- The whole `while moved_left` loop (lines 162-173).  Terminates because
every pass that moves takes the boundary down by at least 128 while a
successful match keeps it above `-len(data_a) - 256` (below that every
queried snippet is empty and cannot match). -/
def move_left_loop (data_a data_b : List Nat) (expected : Option Int) (e : Int) : Int :=
  match hp : move_left_pass data_a data_b expected moveJumps false e with
  | (false, e') => e'
  | (true, e') => move_left_loop data_a data_b expected e'
termination_by (e + data_a.length + 256).toNat
decreasing_by
  rcases move_left_pass_spec data_a data_b expected moveJumps (by decide) false e true e' hp with
    ⟨hm', _⟩ | ⟨_, hle, hgt⟩
  · exact absurd hm'.symm (by simp)
  · omega

theorem move_left_loop_le (data_a data_b : List Nat) (expected : Option Int) (e : Int) :
    move_left_loop data_a data_b expected e ≤ e := by
  induction e using move_left_loop.induct data_a data_b expected with
  | case1 e e' hp =>
    rw [move_left_loop]
    split
    next e'' heq =>
      rcases move_left_pass_spec data_a data_b expected moveJumps (by decide) false e false e''
        heq with ⟨_, he⟩ | ⟨hm, _, _⟩
      · omega
      · exact absurd hm (by simp)
    next e'' heq =>
      rw [hp] at heq
      exact absurd (congrArg Prod.fst heq) (by simp)
  | case2 e e' hp ih =>
    rw [move_left_loop]
    split
    next e'' heq =>
      rw [hp] at heq
      exact absurd (congrArg Prod.fst heq) (by simp)
    next e'' heq =>
      rw [hp] at heq
      obtain rfl : e' = e'' := by
        have := congrArg Prod.snd heq
        simpa using this
      rcases move_left_pass_spec data_a data_b expected moveJumps (by decide) false e true e'
        hp with ⟨hm', _⟩ | ⟨_, hle, _⟩
      · exact absurd hm'.symm (by simp)
      · omega

theorem pyIndex_some_bound (l : List Nat) (i : Int) (v : Nat)
    (h : pyIndex l i = some v) : -(l.length : Int) ≤ i ∧ i < l.length := by
  unfold pyIndex at h
  dsimp only at h
  by_cases hi : i < 0
  · rw [if_pos hi] at h
    by_cases hneg : i + (l.length : Int) < 0
    · rw [if_pos hneg] at h
      exact absurd h (by simp)
    · rw [if_neg hneg] at h
      have hlt := (List.get?_eq_some.mp h).1
      constructor <;> omega
  · rw [if_neg hi] at h
    rw [if_neg hi] at h
    have hlt := (List.get?_eq_some.mp h).1
    constructor <;> omega

set_option linter.unusedVariables false in
/-- The "crawl left a little more" loop (lines 176-179).  Python's `and`
short-circuits left to right: with `expected_offset = None` the second
conjunct raises a `TypeError` once `end_offset < len(data_a)`, and the
byte accesses raise `IndexError` below index `-len` (negative indices wrap
once).  Terminates because the boundary decreases and a successful access
keeps it at or above `-len(data_a)`. -/
def crawl_left (data_a data_b : List Nat) (expected : Option Int) (e : Int) :
    Except String Int :=
  if e < (data_a.length : Int) then
    match expected with
    | none => .error "TypeError"
    | some exp =>
      if e + exp < (data_b.length : Int) then
        match h1 : pyIndex data_a e, h2 : pyIndex data_b (e + exp) with
        | some x, some y =>
          if x = y then crawl_left data_a data_b expected (e - 1) else .ok e
        | _, _ => .error "IndexError"
      else .ok e
  else .ok e
termination_by (e + data_a.length + 1).toNat
decreasing_by
  have := pyIndex_some_bound data_a e x h1
  omega

theorem crawl_left_le (data_a data_b : List Nat) (expected : Option Int) (e e' : Int)
    (h : crawl_left data_a data_b expected e = .ok e') : e' ≤ e := by
  generalize hn : (e + data_a.length + 1).toNat = n
  induction n using Nat.strong_induction_on generalizing e e' with
  | _ n ih =>
    subst hn
    rw [crawl_left.eq_def] at h
    by_cases hlt : e < (data_a.length : Int)
    · rw [if_pos hlt] at h
      cases expected with
      | none => exact absurd h (by simp)
      | some exp =>
        dsimp only at h
        by_cases hblt : e + exp < (data_b.length : Int)
        · rw [if_pos hblt] at h
          split at h
          · rename_i x y h1 h2
            split_ifs at h with hxy
            · have hbound := pyIndex_some_bound data_a e x h1
              have hrec := ih ((e - 1) + data_a.length + 1).toNat (by omega) (e - 1) e' h rfl
              omega
            · exact le_of_eq (Except.ok.inj h).symm
          · exact absurd h (by simp)
        · rw [if_neg hblt] at h
          exact le_of_eq (Except.ok.inj h).symm
    · rw [if_neg hlt] at h
      exact le_of_eq (Except.ok.inj h).symm

/-- Modelled random source (spec §5: "implementations must accept an
injectable, seedable random source"): `rng` is a stream of draws indexed by
a counter, and `random.randint(lo, hi)` is modelled as
`lo + rng ctr % (hi - lo + 1)`, which lies in `[lo, hi]` whenever
`lo ≤ hi`, exactly `randint`'s contract. -/
def randint (rng : Nat → Int) (ctr : Nat) (lo hi : Int) : Int :=
  lo + rng ctr % (hi - lo + 1)

theorem randint_mem (rng : Nat → Int) (ctr : Nat) (lo hi : Int) (h : lo ≤ hi) :
    lo ≤ randint rng ctr lo hi ∧ randint rng ctr lo hi ≤ hi := by
  unfold randint
  have hpos : 0 < hi - lo + 1 := by omega
  have h1 := Int.emod_nonneg (rng ctr) (by omega : hi - lo + 1 ≠ 0)
  have h2 := Int.emod_lt_of_pos (rng ctr) hpos
  omega

/-- The inner `for j in range(50)` loop of `find_random_match`
(lines 42-47): draw a random offset and return the first unique match. -/
def frm_tries (data_a data_b : List Nat) (lo hi msize : Int) (rng : Nat → Int) :
    Nat → Nat → Option (Int × Int) × Nat
  | 0, ctr => (none, ctr)
  | n + 1, ctr =>
    let offs := randint rng ctr lo hi
    match check_match_at data_a data_b offs msize with
    | some m => (some (offs, m), ctr + 1)
    | none => frm_tries data_a data_b lo hi msize rng n (ctr + 1)

theorem frm_tries_bound (data_a data_b : List Nat) (lo hi msize : Int) (rng : Nat → Int)
    (hlh : lo ≤ hi) :
    ∀ (n ctr : Nat) (pa pb : Int) (c' : Nat),
      frm_tries data_a data_b lo hi msize rng n ctr = (some (pa, pb), c') →
      lo ≤ pa ∧ pa ≤ hi := by
  intro n
  induction n with
  | zero =>
    intro ctr pa pb c' h
    unfold frm_tries at h
    exact absurd (congrArg Prod.fst h) (by simp)
  | succ n ih =>
    intro ctr pa pb c' h
    unfold frm_tries at h
    dsimp only at h
    cases hm : check_match_at data_a data_b (randint rng ctr lo hi) msize with
    | some m =>
      rw [hm] at h
      have hfst := congrArg Prod.fst h
      simp only at hfst
      have hp := Option.some.inj hfst
      have h1 : randint rng ctr lo hi = pa := congrArg Prod.fst hp
      subst h1
      exact randint_mem rng ctr lo hi hlh
    | none =>
      rw [hm] at h
      exact ih (ctr + 1) pa pb c' h

/-- The `for match_size in [128, 64]` loop of `find_random_match`
(lines 38-49): sizes too large for either buffer or the range are skipped;
a failure falls through to the sentinel `(-1, -1)`. -/
def frm_sizes (data_a data_b : List Nat) (start end_ : Int) (rng : Nat → Int) :
    List Int → Nat → (Int × Int) × Nat
  | [], ctr => ((-1, -1), ctr)
  | msize :: rest, ctr =>
    if min (min (data_a.length : Int) (data_b.length : Int)) (end_ - start) < msize then
      frm_sizes data_a data_b start end_ rng rest ctr
    else
      match frm_tries data_a data_b start (end_ - msize) msize rng 50 ctr with
      | (some r, c') => (r, c')
      | (none, c') => frm_sizes data_a data_b start end_ rng rest c'

/-- `find_random_match` (lines 33-49). -/
def find_random_match (data_a data_b : List Nat) (start end_ : Int) (rng : Nat → Int)
    (ctr : Nat) : (Int × Int) × Nat :=
  frm_sizes data_a data_b start end_ rng [128, 64] ctr

theorem frm_sizes_bound (data_a data_b : List Nat) (start end_ : Int) (rng : Nat → Int) :
    ∀ (sizes : List Int), (∀ m ∈ sizes, 64 ≤ m) →
      ∀ (ctr : Nat) (pa pb : Int) (c' : Nat),
        frm_sizes data_a data_b start end_ rng sizes ctr = ((pa, pb), c') →
        (pa = -1 ∧ pb = -1) ∨
          (start ≤ pa ∧ pa ≤ end_ - 64 ∧ 64 ≤ end_ - start) := by
  intro sizes
  induction sizes with
  | nil =>
    intro _ ctr pa pb c' h
    unfold frm_sizes at h
    have := congrArg Prod.fst h
    simp only at this
    exact Or.inl ⟨(congrArg Prod.fst this).symm, (congrArg Prod.snd this).symm⟩
  | cons msize rest ih =>
    intro hsz ctr pa pb c' h
    have hm64 : 64 ≤ msize := hsz msize (List.mem_cons_self msize rest)
    have hrest : ∀ m ∈ rest, 64 ≤ m := fun m hm => hsz m (List.mem_cons_of_mem msize hm)
    unfold frm_sizes at h
    split_ifs at h with hskip
    · exact ih hrest ctr pa pb c' h
    · push_neg at hskip
      have hms : msize ≤ end_ - start := le_trans hskip (min_le_right _ _)
      cases ht : frm_tries data_a data_b start (end_ - msize) msize rng 50 ctr with
      | mk r c'' =>
        cases r with
        | none =>
          rw [ht] at h
          exact ih hrest c'' pa pb c' h
        | some rv =>
          rw [ht] at h
          have hfst := congrArg Prod.fst h
          simp only at hfst
          obtain rfl : rv = (pa, pb) := hfst
          have hb := frm_tries_bound data_a data_b start (end_ - msize) msize rng
            (by omega) 50 ctr pa pb c'' ht
          exact Or.inr ⟨hb.1, by omega, by omega⟩

/-- `division_points.add(x)` on the set of division points. -/
def insertPoint (x : Int) (pts : List Int) : List Int :=
  if x ∈ pts then pts else pts ++ [x]

theorem insertPoint_nodup (x : Int) (pts : List Int) (h : pts.Nodup) :
    (insertPoint x pts).Nodup := by
  unfold insertPoint
  split_ifs with hmem
  · exact h
  · simpa [List.nodup_append] using ⟨h, hmem⟩

theorem mem_insertPoint (x y : Int) (pts : List Int) (h : y ∈ insertPoint x pts) :
    y ∈ pts ∨ y = x := by
  unfold insertPoint at h
  split_ifs at h with hmem
  · exact Or.inl h
  · rcases List.mem_append.mp h with h' | h'
    · exact Or.inl h'
    · exact Or.inr (List.mem_singleton.mp h')

/-- The sampling pass (lines 182-191): run `find_random_match` a fixed
number of times; each non-sentinel match is reported to the tracker (which
may raise), and addresses that create new divisions join the set. -/
def sample_pass (data_a data_b : List Nat) (address_a address_b : Int)
    (start_offset end_offset : Int) (rng : Nat → Int) :
    Nat → DifferencesTracker → List Int → Nat →
    Except String (DifferencesTracker × List Int × Nat)
  | 0, tracker, pts, ctr => .ok (tracker, pts, ctr)
  | n + 1, tracker, pts, ctr =>
    match find_random_match data_a data_b start_offset end_offset rng ctr with
    | ((pa, pb), ctr') =>
      if pa ≠ -1 then
        match report_offset_at_address tracker (address_a + pa)
            ((pb - pa) + (address_b - address_a)) with
        | .error e => .error e
        | .ok (tracker', created) =>
          sample_pass data_a data_b address_a address_b start_offset end_offset rng n tracker'
            (if created then insertPoint (address_a + pa) pts else pts) ctr'
      else
        sample_pass data_a data_b address_a address_b start_offset end_offset rng n tracker
          pts ctr'

theorem sample_pass_mem (data_a data_b : List Nat) (address_a address_b : Int)
    (start_offset end_offset : Int) (rng : Nat → Int) :
    ∀ (n : Nat) (tracker : DifferencesTracker) (pts : List Int) (ctr : Nat)
      (t' : DifferencesTracker) (pts' : List Int) (c' : Nat),
      sample_pass data_a data_b address_a address_b start_offset end_offset rng n tracker pts
        ctr = .ok (t', pts', c') →
      ∀ p ∈ pts', p ∈ pts ∨
        (address_a + start_offset ≤ p ∧ p ≤ address_a + end_offset - 64 ∧
          64 ≤ end_offset - start_offset) := by
  intro n
  induction n with
  | zero =>
    intro tracker pts ctr t' pts' c' h p hp
    unfold sample_pass at h
    obtain ⟨rfl, rfl⟩ : pts = pts' ∧ c' = ctr := by
      have := Except.ok.inj h
      exact ⟨congrArg (fun z => z.2.1) this, (congrArg (fun z => z.2.2) this).symm⟩
    exact Or.inl hp
  | succ n ih =>
    intro tracker pts ctr t' pts' c' h p hp
    unfold sample_pass at h
    cases hr : find_random_match data_a data_b start_offset end_offset rng ctr with
    | mk r ctr2 =>
      obtain ⟨pa, pb⟩ := r
      rw [hr] at h
      dsimp only at h
      split_ifs at h with hpa
      · cases hrep : report_offset_at_address tracker (address_a + pa)
            ((pb - pa) + (address_b - address_a)) with
        | error e => rw [hrep] at h; exact absurd h (by simp)
        | ok res =>
          obtain ⟨tracker2, created⟩ := res
          rw [hrep] at h
          dsimp only at h
          have hb := frm_sizes_bound data_a data_b start_offset end_offset rng [128, 64]
            (by decide) ctr pa pb ctr2 hr
          rcases hb with ⟨rfl, rfl⟩ | hbd
          · exact absurd rfl hpa
          · by_cases hcr : created = true
            · rw [if_pos hcr] at h
              rcases ih tracker2 _ ctr2 t' pts' c' h p hp with hmem | hgood
              · rcases mem_insertPoint (address_a + pa) p pts hmem with h' | h'
                · exact Or.inl h'
                · exact Or.inr ⟨by omega, by omega, hbd.2.2⟩
              · exact Or.inr hgood
            · rw [if_neg hcr] at h
              exact ih tracker2 pts ctr2 t' pts' c' h p hp
      · exact ih tracker pts ctr2 t' pts' c' h p hp

theorem sample_pass_nodup (data_a data_b : List Nat) (address_a address_b : Int)
    (start_offset end_offset : Int) (rng : Nat → Int) :
    ∀ (n : Nat) (tracker : DifferencesTracker) (pts : List Int) (ctr : Nat)
      (t' : DifferencesTracker) (pts' : List Int) (c' : Nat),
      sample_pass data_a data_b address_a address_b start_offset end_offset rng n tracker pts
        ctr = .ok (t', pts', c') →
      pts.Nodup → pts'.Nodup := by
  intro n
  induction n with
  | zero =>
    intro tracker pts ctr t' pts' c' h hnd
    unfold sample_pass at h
    obtain rfl : pts = pts' := congrArg (fun z => z.2.1) (Except.ok.inj h)
    exact hnd
  | succ n ih =>
    intro tracker pts ctr t' pts' c' h hnd
    unfold sample_pass at h
    cases hr : find_random_match data_a data_b start_offset end_offset rng ctr with
    | mk r ctr2 =>
      obtain ⟨pa, pb⟩ := r
      rw [hr] at h
      dsimp only at h
      split_ifs at h with hpa
      · cases hrep : report_offset_at_address tracker (address_a + pa)
            ((pb - pa) + (address_b - address_a)) with
        | error e => rw [hrep] at h; exact absurd h (by simp)
        | ok res =>
          obtain ⟨tracker2, created⟩ := res
          rw [hrep] at h
          dsimp only at h
          by_cases hcr : created = true
          · rw [if_pos hcr] at h
            exact ih tracker2 _ ctr2 t' pts' c' h (insertPoint_nodup _ pts hnd)
          · rw [if_neg hcr] at h
            exact ih tracker2 pts ctr2 t' pts' c' h hnd
      · exact ih tracker pts ctr2 t' pts' c' h hnd

/-- Insertion sort, modelling Python's `sorted` on the division-point
set. -/
def insertSorted (x : Int) : List Int → List Int
  | [] => [x]
  | y :: ys => if x ≤ y then x :: y :: ys else y :: insertSorted x ys

def sortPoints : List Int → List Int
  | [] => []
  | x :: xs => insertSorted x (sortPoints xs)

theorem insertSorted_perm (x : Int) (l : List Int) : (insertSorted x l).Perm (x :: l) := by
  induction l with
  | nil => rfl
  | cons y ys ih =>
    unfold insertSorted
    split_ifs with hle
    · rfl
    · exact ((ih.cons y).trans (List.Perm.swap x y ys))

theorem sortPoints_perm (l : List Int) : (sortPoints l).Perm l := by
  induction l with
  | nil => rfl
  | cons x xs ih =>
    unfold sortPoints
    exact (insertSorted_perm x (sortPoints xs)).trans (ih.cons x)

theorem insertSorted_pairwise (x : Int) (l : List Int)
    (h : List.Pairwise (· ≤ ·) l) : List.Pairwise (· ≤ ·) (insertSorted x l) := by
  induction l with
  | nil => simp [insertSorted]
  | cons y ys ih =>
    unfold insertSorted
    rcases List.pairwise_cons.mp h with ⟨hy, hys⟩
    split_ifs with hle
    · refine List.pairwise_cons.mpr ⟨?_, h⟩
      intro z hz
      rcases List.mem_cons.mp hz with rfl | hz'
      · exact hle
      · exact le_trans hle (hy z hz')
    · refine List.pairwise_cons.mpr ⟨?_, ih hys⟩
      intro z hz
      rcases List.mem_cons.mp ((insertSorted_perm x ys).mem_iff.mp hz) with rfl | hz'
      · omega
      · exact hy z hz'
  
theorem sortPoints_pairwise (l : List Int) : List.Pairwise (· ≤ ·) (sortPoints l) := by
  induction l with
  | nil => exact List.Pairwise.nil
  | cons x xs ih => exact insertSorted_pairwise x (sortPoints xs) ih

theorem sortPoints_pairwise_lt (l : List Int) (h : l.Nodup) :
    List.Pairwise (· < ·) (sortPoints l) := by
  have hnd : (sortPoints l).Nodup := ((sortPoints_perm l).nodup_iff).mpr h
  have hle := sortPoints_pairwise l
  exact (List.Pairwise.and hle hnd).imp (fun hab => lt_of_le_of_ne hab.1 hab.2)

/-- The adjacent pairs `sorted_points[i : i + 2]` of the recursion
(lines 195-202). -/
def pairsOf : List Int → List (Int × Int)
  | x :: y :: rest => (x, y) :: pairsOf (y :: rest)
  | _ => []

theorem pairsOf_mem : ∀ (l : List Int) (x y : Int), (x, y) ∈ pairsOf l → x ∈ l ∧ y ∈ l := by
  intro l
  induction l with
  | nil => intro x y h; cases h
  | cons a as ih =>
    intro x y h
    cases as with
    | nil => cases h
    | cons b bs =>
      rw [pairsOf] at h
      rcases List.mem_cons.mp h with heq | h'
      · obtain ⟨h1, h2⟩ := Prod.ext_iff.mp heq
        subst h1
        subst h2
        exact ⟨List.mem_cons_self _ _, List.mem_cons_of_mem _ (List.mem_cons_self _ _)⟩
      · obtain ⟨hx, hy⟩ := ih x y h'
        exact ⟨List.mem_cons_of_mem _ hx, List.mem_cons_of_mem _ hy⟩

theorem pairsOf_lt (l : List Int) (hp : List.Pairwise (· < ·) l) :
    ∀ x y, (x, y) ∈ pairsOf l → x < y := by
  induction l with
  | nil => intro x y h; cases h
  | cons a as ih =>
    intro x y h
    cases as with
    | nil => cases h
    | cons b bs =>
      rw [pairsOf] at h
      rcases List.mem_cons.mp h with heq | h'
      · obtain ⟨h1, h2⟩ := Prod.ext_iff.mp heq
        subst h1
        subst h2
        exact (List.pairwise_cons.mp hp).1 y (List.mem_cons_self _ _)
      · exact ih hp.tail x y h'

/-- In a strictly sorted list of at least three elements all lying within
`[lo, hi]`, every adjacent pair spans strictly less than `hi - lo`: a
first pair has a successor below `hi`, and any later pair has a
predecessor above `lo`. -/
theorem pairsOf_gap_lt (l : List Int) (lo hi : Int)
    (hp : List.Pairwise (· < ·) l) (h3 : 3 ≤ l.length)
    (hbd : ∀ p ∈ l, lo ≤ p ∧ p ≤ hi) :
    ∀ x y, (x, y) ∈ pairsOf l → y - x < hi - lo := by
  match l, h3 with
  | a :: b :: c :: rest, _ =>
    intro x y h
    rw [pairsOf] at h
    rcases List.mem_cons.mp h with heq | h'
    · obtain ⟨h1, h2⟩ := Prod.ext_iff.mp heq
      subst h1
      subst h2
      have hbc : y < c := (List.pairwise_cons.mp hp.tail).1 c (List.mem_cons_self _ _)
      have hc := hbd c (by simp)
      have ha := hbd x (by simp)
      omega
    · have hx : x ∈ b :: c :: rest := (pairsOf_mem _ x y h').1
      have hax : a < x := (List.pairwise_cons.mp hp).1 x hx
      have ha := hbd a (by simp)
      have hy : y ∈ b :: c :: rest := (pairsOf_mem _ x y h').2
      have hyb := hbd y (List.mem_cons_of_mem a hy)
      omega

theorem nodup_subset_length_le (l1 l2 : List Int) (h : l1.Nodup) (hs : l1 ⊆ l2) :
    l1.length ≤ l2.length :=
  (List.subperm_ext_iff.mpr (fun a ha => by
    rw [List.count_eq_one_of_mem h ha]
    exact List.one_le_count_iff.mpr (hs ha))).length_le

/-- The heart of the refiner's termination: when a sampling pass over
`[start_offset, end2]` ends with more than two division points, every
adjacent pair of the sorted points spans a positive distance that is
strictly smaller than `end2 - start_offset`. -/
theorem sample_gap_bound (data_a data_b : List Nat) (address_a address_b : Int)
    (start_offset end2 : Int) (rng : Nat → Int) (n : Nat)
    (tracker t' : DifferencesTracker) (pts' : List Int) (ctr c' : Nat)
    (hsp : sample_pass data_a data_b address_a address_b start_offset end2 rng n tracker
      (insertPoint (address_a + end2) [address_a + start_offset]) ctr = .ok (t', pts', c'))
    (hlen : 2 < pts'.length) :
    ∀ p ∈ pairsOf (sortPoints pts'), 0 < p.2 - p.1 ∧ p.2 - p.1 < end2 - start_offset := by
  have hnd0 : (insertPoint (address_a + end2) [address_a + start_offset]).Nodup :=
    insertPoint_nodup _ _ (List.nodup_singleton _)
  have hnd' : pts'.Nodup :=
    sample_pass_nodup data_a data_b address_a address_b start_offset end2 rng n tracker _ ctr
      t' pts' c' hsp hnd0
  have hmem := sample_pass_mem data_a data_b address_a address_b start_offset end2 rng n
    tracker _ ctr t' pts' c' hsp
  have hpts0 : ∀ p ∈ insertPoint (address_a + end2) [address_a + start_offset],
      p = address_a + start_offset ∨ p = address_a + end2 := by
    intro p hp
    rcases mem_insertPoint _ p _ hp with h' | h'
    · exact Or.inl (List.mem_singleton.mp h')
    · exact Or.inr h'
  -- at least one point was sampled, so the range is at least 64 wide
  have h64 : 64 ≤ end2 - start_offset := by
    by_contra hlt
    have hsub : pts' ⊆ insertPoint (address_a + end2) [address_a + start_offset] := by
      intro p hp
      rcases hmem p hp with hin | hbd
      · exact hin
      · omega
    have hle := nodup_subset_length_le pts' _ hnd' hsub
    have : (insertPoint (address_a + end2) [address_a + start_offset]).length ≤ 2 := by
      unfold insertPoint
      split_ifs <;> simp
    omega
  have hbdall : ∀ p ∈ sortPoints pts',
      address_a + start_offset ≤ p ∧ p ≤ address_a + end2 := by
    intro p hp
    have hp' : p ∈ pts' := (sortPoints_perm pts').mem_iff.mp hp
    rcases hmem p hp' with hin | hbd
    · rcases hpts0 p hin with rfl | rfl
      · omega
      · omega
    · omega
  have hpw := sortPoints_pairwise_lt pts' hnd'
  have hlen3 : 3 ≤ (sortPoints pts').length := by
    rw [(sortPoints_perm pts').length_eq]
    omega
  intro p hp
  obtain ⟨x, y⟩ := p
  constructor
  · have := pairsOf_lt (sortPoints pts') hpw x y hp
    omega
  · have := pairsOf_gap_lt (sortPoints pts') (address_a + start_offset) (address_a + end2)
      hpw hlen3 hbdall x y hp
    omega

mutual

/-- `find_division_points_in_range` (lines 150-202): move the upper
boundary left while unique matches confirm the expected offset, crawl
further while single bytes agree (raising on `None` arithmetic or
out-of-range byte access exactly as Python would), sample random unique
matches into the tracker, and — when more than two division points were
collected — recurse on every adjacent pair of the sorted points.
Well-founded: each recursive sub-range spans strictly less than the
current one (`sample_gap_bound`). -/
def find_division_points_in_range (data_a data_b : List Nat) (address_a address_b : Int)
    (start_offset end_offset : Int) (tracker : DifferencesTracker) (rng : Nat → Int)
    (ctr : Nat) : Except String (DifferencesTracker × Nat) :=
  let expected := expected_offset_at tracker.known_address_offsets end_offset
  let end1 := move_left_loop data_a data_b expected end_offset
  match hc : crawl_left data_a data_b expected end1 with
  | .error e => .error e
  | .ok end2 =>
    let iterations := (max ((end2 - start_offset) / 50) 100).toNat
    match hsp : sample_pass data_a data_b address_a address_b start_offset end2 rng iterations
        tracker (insertPoint (address_a + end2) [address_a + start_offset]) ctr with
    | .error e => .error e
    | .ok (tracker', pts, ctr') =>
      if hlen : 2 < pts.length then
        fdp_pairs data_a data_b address_a address_b tracker' rng ctr'
          ((end_offset - start_offset).toNat) (pairsOf (sortPoints pts))
          (by
            intro p hp
            have h1 := sample_gap_bound data_a data_b address_a address_b start_offset end2 rng
              iterations tracker tracker' pts ctr ctr' hsp hlen p hp
            have h2 := crawl_left_le data_a data_b expected end1 end2 hc
            have h3 := move_left_loop_le data_a data_b expected end_offset
            omega)
      else .ok (tracker', ctr')
termination_by ((end_offset - start_offset).toNat, 1, 0)
decreasing_by
  exact Prod.Lex.right _ (Prod.Lex.left _ _ (by omega))

/-- The `for i in range(len(sorted_points) - 1)` loop (lines 196-202):
recurse on each adjacent pair `sorted_points[i : i + 2]`, threading the
tracker and the random counter. -/
def fdp_pairs (data_a data_b : List Nat) (address_a address_b : Int)
    (tracker : DifferencesTracker) (rng : Nat → Int) (ctr : Nat) (span : Nat) :
    (pairs : List (Int × Int)) → (∀ p ∈ pairs, (p.2 - p.1).toNat < span) →
    Except String (DifferencesTracker × Nat)
  | [], _ => .ok (tracker, ctr)
  | (a, b) :: rest, h =>
    match find_division_points_in_range data_a data_b address_a address_b a b tracker rng ctr with
    | .error e => .error e
    | .ok (tracker', ctr') =>
      fdp_pairs data_a data_b address_a address_b tracker' rng ctr' span rest
        (fun p hp => h p (List.mem_cons_of_mem _ hp))
termination_by pairs _ => (span, 0, pairs.length)
decreasing_by
  · exact Prod.Lex.left _ _ (h (a, b) (List.mem_cons_self _ _))
  · exact Prod.Lex.right _ (Prod.Lex.right _ (by simp only [List.length_cons]; omega))

end

/-! ## Claim C9: termination of the recursive refiner -/

/-- C9: `find_division_points_in_range` terminates on every input — its
embedding above is a total (fuel-free, well-founded) Lean function, so a
result exists for all arguments.  The accompanying conjunct is the
decrease argument the recursion rests on: whenever a level collects more
than two division points, every adjacent pair of the sorted points spans a
positive distance strictly smaller than the level's own (adjusted) range,
so each level either collects no new division points and stops, or
recurses only on strictly smaller adjacent sub-ranges. -/
theorem find_division_points_in_range_total (data_a data_b : List Nat)
    (address_a address_b start_offset end_offset : Int) (tracker : DifferencesTracker)
    (rng : Nat → Int) (ctr : Nat) :
    (∃ r : Except String (DifferencesTracker × Nat),
      find_division_points_in_range data_a data_b address_a address_b start_offset end_offset
        tracker rng ctr = r) ∧
    (∀ (end2 : Int) (n : Nat) (t' : DifferencesTracker) (pts' : List Int) (c' : Nat),
      sample_pass data_a data_b address_a address_b start_offset end2 rng n tracker
        (insertPoint (address_a + end2) [address_a + start_offset]) ctr = .ok (t', pts', c') →
      2 < pts'.length →
      ∀ p ∈ pairsOf (sortPoints pts'), 0 < p.2 - p.1 ∧ p.2 - p.1 < end2 - start_offset) :=
  ⟨⟨_, rfl⟩, fun end2 n t' pts' c' hsp hlen =>
    sample_gap_bound data_a data_b address_a address_b start_offset end2 rng n tracker t'
      pts' ctr c' hsp hlen⟩
